import Mathlib

/-!
Verification of the JSONL-validation and append-only-log core of the
React-Starter server (`src/server/server.js`).

The server code is JavaScript; the embedding models:
* JSON values as produced by the `JSON.parse` builtin (`Json`), restricted to
  integer numbers — the repository only ever handles integral numeric fields;
* the `JSON.parse` / `JSON.stringify` builtin pair (`parseJson` / `printJ`),
  as a recursive-descent parser with an explicit recursion budget and a
  printer that escapes exactly what `JSON.stringify` escapes;
* the `readline` line splitting used by `validateJSONL` (`splitLines`, with
  `crlfDelay: Infinity`: a line ends at `\n`, at `\r\n` taken as one break,
  or at a `\r` not followed by `\n`) and the JavaScript `String.split` used
  by the listing endpoints (`jsSplit`);
* JavaScript truthiness, `typeof`, and property access, which the validator
  relies on (`truthyOpt`, `isStringOpt`, `jsLengthVal`, `getField`), and the
  coercing relational comparison applied to the `length` property
  (`toNumber`, `numGt`), restricted like the rest of the model to integral
  numeric strings — fractional and exponent numerals are out of scope;
  property access on `null` throws a TypeError, which the validator catches
  in the same handler as parse failures;
* the request handlers named by the claims, as pure functions from the
  request data and the (abstract) upstream-API outcome to a reply that
  records the HTTP status and which temporary files were unlinked.
-/

namespace ReactStarter

/-- Model of a JavaScript value produced by the `JSON.parse` builtin.
Numbers are restricted to integers: the repository only produces and
inspects integral numbers, and floating point is out of scope. Object
fields keep their textual order; duplicate keys are resolved by
`getField` with the last binding winning, as `JSON.parse` does. -/
inductive Json where
  | null : Json
  | bool (b : Bool) : Json
  | num (i : Int) : Json
  | str (s : List Char) : Json
  | arr (elems : List Json) : Json
  | obj (fields : List (List Char × Json)) : Json

/-- Structural induction for `Json` with member hypotheses for the nested
lists, phrased through `sizeOf` so it applies to the nested inductive. -/
theorem Json.strongInd (P : Json → Prop)
    (hnull : P .null) (hbool : ∀ b, P (.bool b)) (hnum : ∀ i, P (.num i))
    (hstr : ∀ s, P (.str s))
    (harr : ∀ xs, (∀ x ∈ xs, P x) → P (.arr xs))
    (hobj : ∀ fs, (∀ kv ∈ fs, P kv.2) → P (.obj fs)) :
    ∀ j, P j := by
  have key : ∀ n : Nat, ∀ j : Json, sizeOf j ≤ n → P j := by
    intro n
    induction n with
    | zero =>
      intro j h
      cases j <;> simp_arith at h
    | succ n ih =>
      intro j h
      cases j with
      | null => exact hnull
      | bool b => exact hbool b
      | num i => exact hnum i
      | str s => exact hstr s
      | arr xs =>
        refine harr xs (fun x hx => ih x ?_)
        have hlt : sizeOf x < sizeOf xs := List.sizeOf_lt_of_mem hx
        have : sizeOf (Json.arr xs) = 1 + sizeOf xs := by simp
        omega
      | obj fs =>
        refine hobj fs (fun kv hkv => ih kv.2 ?_)
        have hlt : sizeOf kv < sizeOf fs := List.sizeOf_lt_of_mem hkv
        have hkv2 : sizeOf kv.2 < sizeOf kv := by
          obtain ⟨k, v⟩ := kv
          simp
        have : sizeOf (Json.obj fs) = 1 + sizeOf fs := by simp
        omega
  exact fun j => key (sizeOf j) j le_rfl

mutual

/-- Boolean equality on `Json` values. -/
def beqJson : Json → Json → Bool
  | .null, .null => true
  | .bool a, .bool b => a == b
  | .num a, .num b => a == b
  | .str a, .str b => a == b
  | .arr a, .arr b => beqJsonList a b
  | .obj a, .obj b => beqJsonFields a b
  | _, _ => false

/-- Boolean equality on lists of `Json` values. -/
def beqJsonList : List Json → List Json → Bool
  | [], [] => true
  | x :: xs, y :: ys => beqJson x y && beqJsonList xs ys
  | _, _ => false

/-- Boolean equality on `Json` object field lists. -/
def beqJsonFields : List (List Char × Json) → List (List Char × Json) → Bool
  | [], [] => true
  | (k1, v1) :: xs, (k2, v2) :: ys => k1 == k2 && beqJson v1 v2 && beqJsonFields xs ys
  | _, _ => false

end

theorem beqJson_iff : ∀ a b : Json, beqJson a b = true ↔ a = b := by
  have main : ∀ a : Json, ∀ b : Json, beqJson a b = true ↔ a = b := by
    intro a
    induction a using Json.strongInd with
    | hnull => intro b; cases b <;> simp [beqJson]
    | hbool x => intro b; cases b <;> simp [beqJson]
    | hnum x => intro b; cases b <;> simp [beqJson]
    | hstr x => intro b; cases b <;> simp [beqJson]
    | harr xs ih =>
      intro b
      cases b with
      | arr ys =>
        simp only [beqJson, Json.arr.injEq]
        induction xs generalizing ys with
        | nil => cases ys <;> simp [beqJsonList]
        | cons x xs ihl =>
          cases ys with
          | nil => simp [beqJsonList]
          | cons y ys =>
            have hx := ih x (by simp)
            have hrest := ihl (fun z hz => ih z (by simp [hz])) ys
            simp [beqJsonList, Bool.and_eq_true, hx y, hrest]
      | null => simp [beqJson]
      | bool y => simp [beqJson]
      | num y => simp [beqJson]
      | str y => simp [beqJson]
      | obj y => simp [beqJson]
    | hobj fs ih =>
      intro b
      cases b with
      | obj gs =>
        simp only [beqJson, Json.obj.injEq]
        induction fs generalizing gs with
        | nil => cases gs <;> simp [beqJsonFields]
        | cons f fs ihl =>
          cases gs with
          | nil => simp [beqJsonFields]
          | cons g gs =>
            obtain ⟨k1, v1⟩ := f
            obtain ⟨k2, v2⟩ := g
            have hv := ih (k1, v1) (by simp)
            have hrest := ihl (fun z hz => ih z (by simp [hz])) gs
            simp only [beqJsonFields, Bool.and_eq_true, beq_iff_eq, hv v2, hrest,
              List.cons.injEq, Prod.mk.injEq]
      | null => simp [beqJson]
      | bool y => simp [beqJson]
      | num y => simp [beqJson]
      | str y => simp [beqJson]
      | arr y => simp [beqJson]
  exact main

instance : DecidableEq Json := fun a b => decidable_of_iff _ (beqJson_iff a b)

instance {ε α : Type} [DecidableEq ε] [DecidableEq α] : DecidableEq (Except ε α)
  | .error e, .error f => decidable_of_iff (e = f) (by simp)
  | .error _, .ok _ => isFalse (by simp)
  | .ok _, .error _ => isFalse (by simp)
  | .ok a, .ok b => decidable_of_iff (a = b) (by simp)

/-- A single-quote character, kept out of string literals. -/
def sq : Char := Char.ofNat 39

/-- Wrap a string in single quotes, as the server error messages do. -/
def quote (s : String) : String := ⟨sq :: s.data ++ [sq]⟩

/-- JSON insignificant whitespace, also used by the model of `trim`. -/
def isWsChar (c : Char) : Bool := c = ' ' || c = '\t' || c = '\n' || c = '\r'

/-- The JavaScript whitespace set that `String.prototype.trim` and the
`Number` string conversion strip: tab through carriage return, space,
no-break space, the Unicode space separators, line and paragraph
separators, and the byte-order mark. -/
def isTrimWs (c : Char) : Bool :=
  c.toNat = 32 || c.toNat = 9 || c.toNat = 10 || c.toNat = 13 ||
  c.toNat = 11 || c.toNat = 12 || c.toNat = 160 || c.toNat = 5760 ||
  (8192 ≤ c.toNat && c.toNat ≤ 8202) || c.toNat = 8232 || c.toNat = 8233 ||
  c.toNat = 8239 || c.toNat = 8287 || c.toNat = 12288 || c.toNat = 65279

/-- Drop leading JSON whitespace. -/
def skipWs : List Char → List Char
  | [] => []
  | c :: r => if isWsChar c then skipWs r else c :: r

/-- Numeric value of a decimal digit character. -/
def digitVal (c : Char) : Nat := c.toNat - 48

/-- Decimal digit character for a value below ten. -/
def digitChar (d : Nat) : Char := Char.ofNat (48 + d)

/-- Lowercase hexadecimal digit character for a value below sixteen. -/
def hexDigit (n : Nat) : Char :=
  if n < 10 then Char.ofNat (48 + n) else Char.ofNat (87 + n)

/-- Value of a hexadecimal digit character, if it is one. -/
def hexVal (c : Char) : Option Nat :=
  if 48 ≤ c.toNat ∧ c.toNat ≤ 57 then some (c.toNat - 48)
  else if 97 ≤ c.toNat ∧ c.toNat ≤ 102 then some (c.toNat - 87)
  else if 65 ≤ c.toNat ∧ c.toNat ≤ 70 then some (c.toNat - 55)
  else none

/-- Decimal value of a big-endian digit list, as the parser accumulates it. -/
def natFromDigits (ds : List Nat) : Nat := ds.foldl (fun a d => 10 * a + d) 0

/-- Unescaped character for a single-character string escape, if legal. -/
def escUn (k : Char) : Option Char :=
  if k = '"' then some '"'
  else if k = '\\' then some '\\'
  else if k = '/' then some '/'
  else if k = 'n' then some '\n'
  else if k = 't' then some '\t'
  else if k = 'r' then some '\r'
  else if k = 'b' then some (Char.ofNat 8)
  else if k = 'f' then some (Char.ofNat 12)
  else none

/-- Read the body of a JSON string literal after the opening quote,
returning the decoded characters and the input after the closing quote.
Models the string recognition of the `JSON.parse` builtin. -/
def readStr : List Char → Except String (List Char × List Char)
  | [] => .error "Unterminated string in JSON"
  | c :: r =>
    if c = '"' then .ok ([], r)
    else if c = '\\' then
      match r with
      | [] => .error "Unterminated string in JSON"
      | k :: r2 =>
        if k = 'u' then
          match r2 with
          | h1 :: h2 :: h3 :: h4 :: r3 =>
            match hexVal h1, hexVal h2, hexVal h3, hexVal h4 with
            | some a, some b, some c3, some d =>
              match readStr r3 with
              | .ok (s, rest) =>
                .ok (Char.ofNat (4096 * a + 256 * b + 16 * c3 + d) :: s, rest)
              | .error e => .error e
            | _, _, _, _ => .error "Bad Unicode escape in JSON"
          | _ => .error "Bad Unicode escape in JSON"
        else
          match escUn k with
          | some c2 =>
            match readStr r2 with
            | .ok (s, rest) => .ok (c2 :: s, rest)
            | .error e => .error e
          | none => .error "Bad escaped character in JSON string"
    else if c.toNat < 32 then .error "Bad control character in JSON string"
    else
      match readStr r with
      | .ok (s, rest) => .ok (c :: s, rest)
      | .error e => .error e

/-- Recognize a fixed keyword tail and produce the corresponding value. -/
def matchLit (lit : List Char) (cs : List Char) (v : Json) :
    Except String (Json × List Char) :=
  if lit.isPrefixOf cs then .ok (v, cs.drop lit.length)
  else .error "Unexpected token in JSON"

/-- Parse an unsigned integer literal starting at `cs`, rejecting leading
zeros and (unsupported) fraction or exponent parts, like `JSON.parse`
restricted to integers. -/
def pNat (cs : List Char) : Except String (Nat × List Char) :=
  let ds := cs.takeWhile (fun c => c.isDigit)
  let rest := cs.dropWhile (fun c => c.isDigit)
  if ds.isEmpty then .error "Unexpected token in JSON"
  else if 1 < ds.length ∧ ds.head? = some '0' then .error "Unexpected number in JSON"
  else
    match rest.head? with
    | some '.' => .error "Non-integer numbers are outside this model"
    | some 'e' => .error "Non-integer numbers are outside this model"
    | some 'E' => .error "Non-integer numbers are outside this model"
    | _ => .ok (natFromDigits (ds.map digitVal), rest)

mutual

/-- Parse one JSON value, with an explicit recursion budget.
Models the `JSON.parse` builtin (integer numbers only). -/
def pValue : Nat → List Char → Except String (Json × List Char)
  | 0, _ => .error "Maximum call stack size exceeded"
  | fuel + 1, cs =>
    match skipWs cs with
    | [] => .error "Unexpected end of JSON input"
    | c :: r =>
      if c = '\x7b' then
        match skipWs r with
        | '\x7d' :: r2 => .ok (.obj [], r2)
        | _ =>
          match pFields fuel r with
          | .ok (fs, r2) => .ok (.obj fs, r2)
          | .error e => .error e
      else if c = '[' then
        match skipWs r with
        | ']' :: r2 => .ok (.arr [], r2)
        | _ =>
          match pElems fuel r with
          | .ok (vs, r2) => .ok (.arr vs, r2)
          | .error e => .error e
      else if c = '"' then
        match readStr r with
        | .ok (s, r2) => .ok (.str s, r2)
        | .error e => .error e
      else if c = 'n' then matchLit ['u', 'l', 'l'] r .null
      else if c = 't' then matchLit ['r', 'u', 'e'] r (.bool true)
      else if c = 'f' then matchLit ['a', 'l', 's', 'e'] r (.bool false)
      else if c = '-' then
        match pNat r with
        | .ok (n, r2) => .ok (.num (-(n : Int)), r2)
        | .error e => .error e
      else if c.isDigit then
        match pNat (c :: r) with
        | .ok (n, r2) => .ok (.num (n : Int), r2)
        | .error e => .error e
      else .error "Unexpected token in JSON"

/-- Parse the comma-separated elements of a non-empty JSON array, up to and
including the closing bracket. -/
def pElems : Nat → List Char → Except String (List Json × List Char)
  | 0, _ => .error "Maximum call stack size exceeded"
  | fuel + 1, cs =>
    match pValue fuel cs with
    | .error e => .error e
    | .ok (v, r) =>
      match skipWs r with
      | ',' :: r2 =>
        match pElems fuel r2 with
        | .ok (vs, r3) => .ok (v :: vs, r3)
        | .error e => .error e
      | ']' :: r2 => .ok ([v], r2)
      | _ => .error "Expected comma or closing bracket in JSON"

/-- Parse the comma-separated members of a non-empty JSON object, up to and
including the closing brace. -/
def pFields : Nat → List Char → Except String (List (List Char × Json) × List Char)
  | 0, _ => .error "Maximum call stack size exceeded"
  | fuel + 1, cs =>
    match skipWs cs with
    | '"' :: r =>
      match readStr r with
      | .error e => .error e
      | .ok (k, r2) =>
        match skipWs r2 with
        | ':' :: r3 =>
          match pValue fuel r3 with
          | .error e => .error e
          | .ok (v, r4) =>
            match skipWs r4 with
            | ',' :: r5 =>
              match pFields fuel r5 with
              | .ok (fs, r6) => .ok ((k, v) :: fs, r6)
              | .error e => .error e
            | '\x7d' :: r5 => .ok ([(k, v)], r5)
            | _ => .error "Expected comma or closing brace in JSON"
        | _ => .error "Expected colon in JSON"
    | _ => .error "Expected property name in JSON"

end

/-- Parse a complete text as a single JSON value, the model of
`JSON.parse` applied to one line. The budget `2 * length + 2` is large
enough for every printed value (`parseJson_printJ`). -/
def parseJson (cs : List Char) : Except String Json :=
  match pValue (2 * cs.length + 2) cs with
  | .error e => .error e
  | .ok (v, rest) =>
    match skipWs rest with
    | [] => .ok v
    | _ => .error "Unexpected non-whitespace character after JSON data"

/-- Decimal digit characters of a natural number, big-endian, the way
`JSON.stringify` prints a non-negative integer. -/
def natChars (n : Nat) : List Char :=
  if n = 0 then ['0'] else (Nat.digits 10 n).reverse.map digitChar

/-- Decimal digit characters of an integer, as `JSON.stringify` prints it. -/
def intChars (i : Int) : List Char :=
  if i < 0 then '-' :: natChars i.natAbs else natChars i.toNat

/-- Escape one character of a string the way `JSON.stringify` does: the
quote, the backslash, the named control escapes, `\u00XX` for the other
control characters, and everything else verbatim. -/
def escChar (c : Char) : List Char :=
  if c = '"' then ['\\', '"']
  else if c = '\\' then ['\\', '\\']
  else if c = '\n' then ['\\', 'n']
  else if c = '\r' then ['\\', 'r']
  else if c = '\t' then ['\\', 't']
  else if c = Char.ofNat 8 then ['\\', 'b']
  else if c = Char.ofNat 12 then ['\\', 'f']
  else if c.toNat < 32 then
    ['\\', 'u', '0', '0', hexDigit (c.toNat / 16), hexDigit (c.toNat % 16)]
  else [c]

/-- Escape a whole string body for `JSON.stringify`. -/
def escChars : List Char → List Char
  | [] => []
  | c :: r => escChar c ++ escChars r

mutual

/-- Print a JSON value, the model of the `JSON.stringify` builtin (no
indentation argument, as the server calls it). -/
def printJ : Json → List Char
  | .num i => intChars i
  | .bool true => ['t', 'r', 'u', 'e']
  | .null => ['n', 'u', 'l', 'l']
  | .bool false => ['f', 'a', 'l', 's', 'e']
  | .str s => '"' :: escChars s ++ ['"']
  | .arr [] => ['[', ']']
  | .arr (x :: xs) => '[' :: printJ x ++ printTail xs ++ [']']
  | .obj [] => ['\x7b', '\x7d']
  | .obj ((k, v) :: fs) =>
      '\x7b' :: '"' :: escChars k ++ '"' :: ':' :: printJ v ++ printFieldTail fs ++ ['\x7d']

/-- Print the remaining elements of an array, each preceded by a comma. -/
def printTail : List Json → List Char
  | [] => []
  | x :: xs => ',' :: printJ x ++ printTail xs

/-- Print the remaining members of an object, each preceded by a comma. -/
def printFieldTail : List (List Char × Json) → List Char
  | [] => []
  | (k, v) :: fs => ',' :: '"' :: escChars k ++ '"' :: ':' :: printJ v ++ printFieldTail fs

end

/-- Split a character stream at every newline, keeping empty segments and
the (possibly empty) final segment: the model of the JavaScript
`String.prototype.split` with separator `"\n"`, used by the listing
endpoints. The result is never empty. -/
def jsSplit : List Char → List (List Char)
  | [] => [[]]
  | c :: r =>
    match jsSplit r with
    | [] => [[]]
    | h :: t => if c = '\n' then [] :: h :: t else (c :: h) :: t

/-- Rewrite every line break of a character stream to a single `\n`,
following the terminator set of `readline` with `crlfDelay: Infinity`
(the regular expression `\r?\n|\r(?!\n)`): a `\r\n` pair is one break,
and a `\r` not followed by `\n` is a break of its own. -/
def normEOL : List Char → List Char
  | [] => []
  | '\r' :: '\n' :: r => '\n' :: normEOL r
  | '\r' :: r => '\n' :: normEOL r
  | c :: r => c :: normEOL r

/-- The number of line breaks `readline` sees in a character stream: each
`\n`, each `\r\n` pair (as one), and each `\r` not followed by `\n`. -/
def termCount : List Char → Nat
  | [] => 0
  | '\r' :: '\n' :: r => 1 + termCount r
  | '\r' :: r => 1 + termCount r
  | '\n' :: r => 1 + termCount r
  | _ :: r => termCount r

/-- Cut a stream whose breaks are all `\n` into the lines `readline`
emits: the newline-terminated segments, plus a final partial segment when
the stream does not end in a newline; an empty stream yields no lines. -/
def nlSplit (t : List Char) : List (List Char) :=
  match (jsSplit t).getLast? with
  | some [] => (jsSplit t).dropLast
  | some lastSeg => (jsSplit t).dropLast ++ [lastSeg]
  | none => (jsSplit t).dropLast

/-- The lines `readline` emits for a character stream: normalize every
break (`\n`, `\r\n`, or a lone `\r`) to `\n`, then cut at the newlines,
keeping a trailing partial line and dropping nothing else. -/
def splitLines (s : List Char) : List (List Char) :=
  nlSplit (normEOL s)

/-- Remove leading and trailing JavaScript whitespace: the model of the
JavaScript `String.prototype.trim`, as the listing endpoints use it to
drop blank lines. -/
def jsTrim (l : List Char) : List Char :=
  ((l.dropWhile isTrimWs).reverse.dropWhile isTrimWs).reverse

/-- Look a key up in an object field list with the last binding winning,
as property access behaves on an object built by `JSON.parse`. -/
def jsLookup : List (List Char × Json) → List Char → Option Json
  | [], _ => none
  | (k, v) :: rest, key =>
    match jsLookup rest key with
    | some r => some r
    | none => if k = key then some v else none

/-- JavaScript property access `v[key]` on a non-null JSON value:
defined on objects, `undefined` (here `none`) on everything else the
validator can meet. Access on `null` throws and is handled separately in
`checkParsed`. -/
def getField (v : Json) (key : List Char) : Option Json :=
  match v with
  | .obj fs => jsLookup fs key
  | _ => none

/-- JavaScript truthiness of a possibly-undefined JSON value. -/
def truthyOpt : Option Json → Bool
  | none => false
  | some .null => false
  | some (.bool b) => b
  | some (.num i) => decide (i ≠ 0)
  | some (.str s) => decide (s ≠ [])
  | some (.arr _) => true
  | some (.obj _) => true

/-- Whether `typeof v` is the string `string`. -/
def isStringOpt : Option Json → Bool
  | some (.str _) => true
  | _ => false

/-- A JavaScript number as far as the coercing comparison needs it: an
integer, or one of the two infinities. `NaN` is represented as `none` at
the `Option` level, so that every comparison against it is false. -/
inductive JsNumber where
  | int (i : Int)
  | posInf
  | negInf
deriving DecidableEq

mutual

/-- The string an element contributes to `Array.prototype.join` (the
`toString` behind JavaScript array-to-primitive coercion): `null` joins
as the empty string, other values by their `ToString` conversion, with a
nested array joined recursively and an object printed as
`[object Object]`. -/
def joinElem : Json → List Char
  | .null => []
  | .bool true => ['t', 'r', 'u', 'e']
  | .bool false => ['f', 'a', 'l', 's', 'e']
  | .num i => intChars i
  | .str s => s
  | .arr [] => []
  | .arr (x :: xs) => joinElem x ++ joinTail xs
  | .obj _ => ("[object Object]").data

/-- The remaining elements of a join, each preceded by the default comma
separator. -/
def joinTail : List Json → List Char
  | [] => []
  | x :: xs => ',' :: joinElem x ++ joinTail xs

end

/-- `Array.prototype.join` with the default comma separator. -/
def joinList (xs : List Json) : List Char := joinElem (.arr xs)

/-- The JavaScript `ToNumber` conversion of a string, restricted like the
rest of the model to integral numerals: surrounding whitespace is
stripped, the empty remainder is `0`, an optionally signed digit string
is its value, an optionally signed `Infinity` is the corresponding
infinity, and anything else is `NaN` (`none`); fractional, exponent and
hex numerals are outside the integer-only model. -/
def strToNumber (s : List Char) : Option JsNumber :=
  match jsTrim s with
  | [] => some (.int 0)
  | '-' :: u =>
    if u = ("Infinity").data then some .negInf
    else if u ≠ [] ∧ u.all Char.isDigit then
      some (.int (-(natFromDigits (u.map digitVal) : Int)))
    else none
  | '+' :: u =>
    if u = ("Infinity").data then some .posInf
    else if u ≠ [] ∧ u.all Char.isDigit then
      some (.int (natFromDigits (u.map digitVal) : Int))
    else none
  | u =>
    if u = ("Infinity").data then some .posInf
    else if u.all Char.isDigit then
      some (.int (natFromDigits (u.map digitVal) : Int))
    else none

/-- The JavaScript `ToNumber` conversion that a relational comparison
applies to a non-undefined operand: numbers stand, booleans and `null`
become `0` or `1`, strings are read as numerals, an array goes through
its joined string form, and a plain object is `NaN`. -/
def toNumber : Json → Option JsNumber
  | .num i => some (.int i)
  | .bool true => some (.int 1)
  | .bool false => some (.int 0)
  | .null => some (.int 0)
  | .str s => strToNumber s
  | .arr xs => strToNumber (joinList xs)
  | .obj _ => none

/-- The JavaScript comparison `x > b` for the coerced operand `x`: false
whenever the coercion produced `NaN` (`none`). -/
def numGt (x : Option JsNumber) (b : Int) : Bool :=
  match x with
  | some (.int i) => decide (b < i)
  | some .posInf => true
  | some .negInf => false
  | none => false

/-- The JavaScript `length` property of a JSON value: the character count
of a string, the element count of an array, and for an object the value
of its `length` member; everything else has no `length` property
(`undefined`, here `none`). -/
def jsLengthVal : Json → Option Json
  | .str s => some (.num s.length)
  | .arr xs => some (.num xs.length)
  | .obj fs => jsLookup fs ['l', 'e', 'n', 'g', 't', 'h']
  | _ => none

/-- The test `v && v.length > 4096` from the validator: the field is
truthy and its `length` property, coerced as the JavaScript `>` does,
compares greater than 4096. -/
def lengthExceeds (p : Option Json) : Bool :=
  truthyOpt p &&
    match p with
    | some v =>
      match jsLengthVal v with
      | some lv => numGt (toNumber lv) 4096
      | none => false
    | none => false

/-- The field name `prompt` as characters. -/
def promptKey : List Char := ['p', 'r', 'o', 'm', 'p', 't']

/-- The field name `completion` as characters. -/
def completionKey : List Char := ['c', 'o', 'm', 'p', 'l', 'e', 't', 'i', 'o', 'n']

/-- The `Line {n}: ` prefix of every validator message. -/
def lineTag (n : Nat) : String := "Line " ++ toString n ++ ": "

/-- Message for a line that failed to parse (or threw during the checks). -/
def invalidJsonMsg (n : Nat) (m : String) : String :=
  lineTag n ++ "Invalid JSON format - " ++ m

/-- Message for a missing or non-string field. -/
def missingFieldMsg (n : Nat) (field : String) : String :=
  lineTag n ++ "Missing or invalid " ++ quote field ++ " field"

/-- Message for an overlong field. -/
def lengthMsg (n : Nat) (field : String) : String :=
  lineTag n ++ field ++ " exceeds maximum length of 4096 characters"

/-- The message of the TypeError thrown by `parsed.prompt` when the parsed
value is `null`. -/
def nullAccessMsg : String :=
  "Cannot read properties of null (reading " ++ quote "prompt" ++ ")"

/-- The checks `validateJSONL` runs on one successfully parsed line, in
source order: missing/invalid `prompt`, missing/invalid `completion`,
`prompt` length, `completion` length. Property access on `null` throws a
TypeError that the surrounding catch turns into an `Invalid JSON format`
message, before any field error is pushed. -/
def checkParsed (n : Nat) (v : Json) : List String :=
  match v with
  | .null => [invalidJsonMsg n nullAccessMsg]
  | _ =>
    let p := getField v promptKey
    let c := getField v completionKey
    (if !truthyOpt p || !isStringOpt p then [missingFieldMsg n "prompt"] else []) ++
    (if !truthyOpt c || !isStringOpt c then [missingFieldMsg n "completion"] else []) ++
    (if lengthExceeds p then [lengthMsg n "Prompt"] else []) ++
    (if lengthExceeds c then [lengthMsg n "Completion"] else [])

/-- The errors `validateJSONL` pushes for line number `n` with text
`line`: a parse failure short-circuits the field checks. -/
def checkLine (n : Nat) (line : List Char) : List String :=
  match parseJson line with
  | .error msg => [invalidJsonMsg n msg]
  | .ok v => checkParsed n v

/-- The `for await` loop of `validateJSONL`: thread the line counter and
collect the error messages in order. -/
def runLines : Nat → List (List Char) → Nat × List String
  | n, [] => (n, [])
  | n, l :: ls =>
    let errs := checkLine (n + 1) l
    let rest := runLines (n + 1) ls
    (rest.1, errs ++ rest.2)

/-- The record `validateJSONL` resolves with. -/
structure ValidationRecord where
  isValid : Bool
  errors : List String
  totalLines : Nat
deriving DecidableEq

/-- The `validateJSONL` function of `src/server/server.js`: split the
stream into lines, check each line, and report the error list, the line
count, and validity as emptiness of the error list. -/
def validateJSONL (input : List Char) : ValidationRecord :=
  let r := runLines 0 (splitLines input)
  { isValid := r.2.length == 0, errors := r.2, totalLines := r.1 }

/-- The contents of a category log file: `none` when the file does not
exist. -/
def LogFile : Type := Option (List Char)

/-- Append one entry to a category log, as the generate/edit/variation
handlers do: serialize it to one JSON line with a trailing newline,
creating the file when absent (`fs.appendFileSync`). -/
def appendLog (file : Option (List Char)) (entry : Json) : Option (List Char) :=
  some ((file.getD []) ++ printJ entry ++ ['\n'])

/-- The `.map(line => JSON.parse(line))` of the listing endpoints: the
first malformed line throws, aborting the whole map. -/
def mapParse : List (List Char) → Except String (List Json)
  | [] => .ok []
  | l :: ls =>
    match parseJson l with
    | .error e => .error e
    | .ok v =>
      match mapParse ls with
      | .error e => .error e
      | .ok vs => .ok (v :: vs)

/-- The listing read used by `GET /api/images` (and the edit/variation
listings): an absent file is an empty listing; otherwise split on
newlines, drop the lines that trim to nothing, parse every remaining line
(the first malformed line aborts the whole call, as the uncaught
`JSON.parse` throw does), and reverse so the most recent entry is first. -/
def listAll (file : Option (List Char)) : Except String (List Json) :=
  match file with
  | none => .ok []
  | some content =>
    match mapParse ((jsSplit content).filter (fun l => !(jsTrim l).isEmpty)) with
    | .error e => .error e
    | .ok entries => .ok entries.reverse

/-- What a request handler observably did: the HTTP status it answered
with, the temporary upload files it unlinked (in order), the validation
details of an error body, the reported line count, and whether the
upstream API was called. -/
structure HandlerReply where
  status : Nat
  deleted : List String
  details : List String
  totalLines : Option Nat
  apiCalled : Bool
deriving DecidableEq

/-- The `POST /api/validate-jsonl` handler: no file is a 400; otherwise
validate, unlink the temporary file, and answer 400 with the error list on
an invalid file, 200 otherwise. The upstream API is never involved. -/
def validateJsonlRoute (file : Option (String × List Char)) : HandlerReply :=
  match file with
  | none => { status := 400, deleted := [], details := [], totalLines := none, apiCalled := false }
  | some (filePath, content) =>
    let r := validateJSONL content
    if !r.isValid then
      { status := 400, deleted := [filePath], details := r.errors,
        totalLines := some r.totalLines, apiCalled := false }
    else
      { status := 200, deleted := [filePath], details := [],
        totalLines := some r.totalLines, apiCalled := false }

/-- The `POST /api/upload` handler: no file is a 400; an invalid file is
unlinked and answered 400 with the error list, without calling the
upstream API; a valid file is sent upstream, and the temporary file is
unlinked exactly once whether the upstream call succeeds (after the call)
or throws (in the catch, guarded by an existence check). -/
def uploadRoute (file : Option (String × List Char)) (api : Except String Unit) :
    HandlerReply :=
  match file with
  | none => { status := 400, deleted := [], details := [], totalLines := none, apiCalled := false }
  | some (filePath, content) =>
    let r := validateJSONL content
    if !r.isValid then
      { status := 400, deleted := [filePath], details := r.errors,
        totalLines := none, apiCalled := false }
    else
      match api with
      | .error _ =>
        { status := 500, deleted := [filePath], details := [],
          totalLines := none, apiCalled := true }
      | .ok _ =>
        { status := 200, deleted := [filePath], details := [],
          totalLines := some r.totalLines, apiCalled := true }

/-- The `POST /api/edit-image` handler: a missing prompt or image is a 400
(leaving any uploaded files in place); on a successful upstream call the
image and, when present, the mask are unlinked after the log append; when
the upstream call throws, the catch answers 500 without unlinking
anything. -/
def editImageRoute (prompt : Option String) (image : Option String)
    (mask : Option String) (api : Except String Unit) : HandlerReply :=
  match prompt with
  | none => { status := 400, deleted := [], details := [], totalLines := none, apiCalled := false }
  | some _ =>
    match image with
    | none => { status := 400, deleted := [], details := [], totalLines := none, apiCalled := false }
    | some img =>
      match api with
      | .error _ =>
        { status := 500, deleted := [], details := [], totalLines := none, apiCalled := true }
      | .ok _ =>
        { status := 200, deleted := img :: mask.toList, details := [],
          totalLines := none, apiCalled := true }

/-- The `POST /api/image-variations` handler: a missing image is a 400; on
upstream success the uploaded image is unlinked; when the upstream call
throws, the catch answers 500 without unlinking. -/
def imageVariationsRoute (image : Option String) (api : Except String Unit) :
    HandlerReply :=
  match image with
  | none => { status := 400, deleted := [], details := [], totalLines := none, apiCalled := false }
  | some img =>
    match api with
    | .error _ =>
      { status := 500, deleted := [], details := [], totalLines := none, apiCalled := true }
    | .ok _ =>
      { status := 200, deleted := [img], details := [], totalLines := none, apiCalled := true }

/-- Spec-side condition on one field, following the specification words of
claim C1: the field is present, is a string, and has length at most 4096
characters. -/
def specFieldOk (f : Option Json) : Bool :=
  match f with
  | some (.str s) => decide (s.length ≤ 4096)
  | _ => false

/-- Spec-side condition on one line, following the specification words of
claim C1: the line parses as a single JSON value and both the `prompt` and
`completion` fields satisfy `specFieldOk`. -/
def specLineValid (line : List Char) : Bool :=
  match parseJson line with
  | .error _ => false
  | .ok v => specFieldOk (getField v promptKey) && specFieldOk (getField v completionKey)

/-- Amended condition on one field: present, a non-empty string, of length
at most 4096 characters. The non-emptiness is what JavaScript truthiness
adds to the spec wording. -/
def fieldOk (f : Option Json) : Bool :=
  match f with
  | some (.str s) => !s.isEmpty && decide (s.length ≤ 4096)
  | _ => false

/-- Amended condition on one line: parses as a single JSON value and both
fields satisfy `fieldOk`. -/
def amendedLineValid (line : List Char) : Bool :=
  match parseJson line with
  | .error _ => false
  | .ok v => fieldOk (getField v promptKey) && fieldOk (getField v completionKey)

/-! ## Fuel measure for the parser round trip -/

mutual

/-- Recursion budget sufficient for `pValue` to parse the printed form of a
value. -/
def jfuel : Json → Nat
  | .null => 1
  | .bool _ => 1
  | .num _ => 1
  | .str _ => 1
  | .arr xs => 1 + lfuel xs
  | .obj fs => 1 + ofuel fs

/-- Recursion budget sufficient for `pElems` on a list of elements. -/
def lfuel : List Json → Nat
  | [] => 0
  | x :: xs => 1 + jfuel x + lfuel xs

/-- Recursion budget sufficient for `pFields` on a list of members. -/
def ofuel : List (List Char × Json) → Nat
  | [] => 0
  | kv :: fs => 1 + jfuel kv.2 + ofuel fs

end

/-- The continuation after a printed number must not begin with a character
that would extend the number. Holds for the end of input and for the
delimiters the printer emits. -/
def numStop : List Char → Bool
  | [] => true
  | c :: _ => !(c.isDigit || c = '.' || c = 'e' || c = 'E')

/-! ## Helper lemmas -/

theorem skipWs_cons_of {c : Char} (r : List Char) (h : isWsChar c = false) :
    skipWs (c :: r) = c :: r := by
  simp [skipWs, h]

theorem takeWhile_nil_of_head {p : Char → Bool} {l : List Char}
    (h : ∀ c, l.head? = some c → p c = false) : l.takeWhile p = [] := by
  cases l with
  | nil => rfl
  | cons c r => simp [List.takeWhile_cons, h c rfl]

theorem dropWhile_id_of_head {p : Char → Bool} {l : List Char}
    (h : ∀ c, l.head? = some c → p c = false) : l.dropWhile p = l := by
  cases l with
  | nil => rfl
  | cons c r => simp [List.dropWhile_cons, h c rfl]

theorem takeWhile_append_all {p : Char → Bool} {a : List Char} (r : List Char)
    (ha : ∀ c ∈ a, p c = true) (hr : ∀ c, r.head? = some c → p c = false) :
    (a ++ r).takeWhile p = a := by
  induction a with
  | nil => simpa using takeWhile_nil_of_head hr
  | cons c t ih =>
    have hc := ha c (by simp)
    simp [List.takeWhile_cons, hc, ih (fun x hx => ha x (by simp [hx]))]

theorem dropWhile_append_all {p : Char → Bool} {a : List Char} (r : List Char)
    (ha : ∀ c ∈ a, p c = true) (hr : ∀ c, r.head? = some c → p c = false) :
    (a ++ r).dropWhile p = r := by
  induction a with
  | nil => simpa using dropWhile_id_of_head hr
  | cons c t ih =>
    have hc := ha c (by simp)
    simp [List.dropWhile_cons, hc, ih (fun x hx => ha x (by simp [hx]))]

theorem jsTrim_ne_nil_of_head {c : Char} {t : List Char} (h : isTrimWs c = false) :
    jsTrim (c :: t) ≠ [] := by
  unfold jsTrim
  have h1 : (c :: t).dropWhile isTrimWs = c :: t := by
    apply dropWhile_id_of_head
    intro x hx
    simp at hx
    exact hx ▸ h
  rw [h1]
  intro hcon
  have h2 : (c :: t).reverse.dropWhile isTrimWs = [] := by
    have := congrArg List.reverse hcon
    simpa using this
  have h3 : ∀ x ∈ (c :: t).reverse, isTrimWs x = true := by
    simpa [List.dropWhile_eq_nil_iff] using h2
  have := h3 c (by simp)
  rw [h] at this
  exact Bool.false_ne_true this

/-! ## Lemmas about the validator loop -/

theorem runLines_fst (ls : List (List Char)) : ∀ n, (runLines n ls).1 = n + ls.length := by
  induction ls with
  | nil => intro n; simp [runLines]
  | cons l ls ih =>
    intro n
    simp [runLines, ih (n + 1)]
    omega

theorem runLines_append (as bs : List (List Char)) :
    ∀ n, (runLines n (as ++ bs)).2 =
      (runLines n as).2 ++ (runLines (n + as.length) bs).2 := by
  induction as with
  | nil => intro n; simp [runLines]
  | cons a as ih =>
    intro n
    have h : n + 1 + as.length = n + (as.length + 1) := by omega
    simp only [List.cons_append, runLines, List.length_cons, List.append_eq]
    rw [ih (n + 1), h, List.append_assoc]

theorem runLines_empty_iff (ls : List (List Char)) :
    ∀ n, (runLines n ls).2 = [] ↔ ∀ i, ∀ h : i < ls.length, checkLine (n + i + 1) (ls.get ⟨i, h⟩) = [] := by
  induction ls with
  | nil => intro n; simp [runLines]
  | cons l ls ih =>
    intro n
    simp only [runLines, List.append_eq_nil, ih (n + 1)]
    constructor
    · rintro ⟨h0, hrest⟩ i hi
      cases i with
      | zero => simpa using h0
      | succ j =>
        have := hrest j (by simpa using hi)
        simpa [Nat.add_assoc, Nat.add_comm 1 j] using this
    · intro h
      refine ⟨by simpa using h 0 (by simp), fun j hj => ?_⟩
      have := h (j + 1) (by simpa using hj)
      simpa [Nat.add_assoc, Nat.add_comm 1 j] using this

/-! ## Lemmas about line splitting -/

theorem jsSplit_ne_nil (s : List Char) : jsSplit s ≠ [] := by
  cases s with
  | nil => simp [jsSplit]
  | cons c r =>
    simp only [jsSplit]
    cases jsSplit r with
    | nil => simp
    | cons h t =>
      by_cases hc : c = '\n' <;> simp [hc]

theorem jsSplit_append_newline (a b : List Char) :
    jsSplit (a ++ '\n' :: b) = jsSplit a ++ jsSplit b := by
  induction a with
  | nil =>
    simp only [List.nil_append, jsSplit]
    cases hb : jsSplit b with
    | nil => exact absurd hb (jsSplit_ne_nil b)
    | cons h t => simp
  | cons c r ih =>
    simp only [List.cons_append, jsSplit, List.append_eq]
    rw [ih]
    cases hr : jsSplit r with
    | nil => exact absurd hr (jsSplit_ne_nil r)
    | cons h t =>
      by_cases hc : c = '\n' <;> simp [hc]

theorem jsSplit_no_newline (a : List Char) (h : '\n' ∉ a) : jsSplit a = [a] := by
  induction a with
  | nil => rfl
  | cons c r ih =>
    have hc : c ≠ '\n' := fun hcc => h (by simp [hcc])
    have hr : '\n' ∉ r := fun hrr => h (by simp [hrr])
    simp only [jsSplit, ih hr]
    simp [hc]

theorem jsSplit_length (s : List Char) : (jsSplit s).length = s.count '\n' + 1 := by
  induction s with
  | nil => simp [jsSplit]
  | cons c r ih =>
    simp only [jsSplit]
    cases hr : jsSplit r with
    | nil => exact absurd hr (jsSplit_ne_nil r)
    | cons h t =>
      rw [hr] at ih
      by_cases hc : c = '\n' <;>
        simp_all [List.count_cons, ih]

theorem jsSplit_concat {c : Char} (hc : c ≠ '\n') :
    ∀ a : List Char, ∃ init lastSeg, jsSplit a = init ++ [lastSeg] ∧
      jsSplit (a ++ [c]) = init ++ [lastSeg ++ [c]] := by
  intro a
  induction a with
  | nil =>
    refine ⟨[], [], rfl, ?_⟩
    simp [jsSplit, hc]
  | cons d a ih =>
    obtain ⟨init, lastSeg, h1, h2⟩ := ih
    by_cases hd : d = '\n'
    · refine ⟨[] :: init, lastSeg, ?_, ?_⟩
      · simp only [jsSplit, List.append_eq]
        rw [h1]
        cases init with
        | nil => simp [hd]
        | cons i0 it => simp [hd]
      · simp only [List.cons_append, jsSplit, List.append_eq]
        rw [h2]
        cases init with
        | nil => simp [hd]
        | cons i0 it => simp [hd]
    · cases init with
      | nil =>
        refine ⟨[], d :: lastSeg, ?_, ?_⟩
        · simp only [jsSplit, List.append_eq]
          rw [h1]
          simp [hd]
        · simp only [List.cons_append, jsSplit, List.append_eq]
          rw [h2]
          simp [hd]
      | cons i0 it =>
        refine ⟨(d :: i0) :: it, lastSeg, ?_, ?_⟩
        · simp only [jsSplit, List.append_eq]
          rw [h1]
          simp [hd]
        · simp only [List.cons_append, jsSplit, List.append_eq]
          rw [h2]
          simp [hd]
theorem nlSplit_of_getLast_nilSeg {t : List Char}
    (h : (jsSplit t).getLast? = some []) :
    nlSplit t = (jsSplit t).dropLast := by
  simp only [nlSplit]
  rw [h]

theorem nlSplit_of_getLast_cons {t : List Char} {x : Char} {xs : List Char}
    (h : (jsSplit t).getLast? = some (x :: xs)) :
    nlSplit t = (jsSplit t).dropLast ++ [x :: xs] := by
  simp only [nlSplit]
  rw [h]

theorem nlSplit_length (t : List Char) :
    (nlSplit t).length =
      t.count '\n' + (if t.getLast? = some '\n' ∨ t = [] then 0 else 1) := by
  induction t using List.reverseRecOn with
  | nil => simp [nlSplit, jsSplit]
  | append_singleton a c ih =>
    by_cases hc : c = '\n'
    · subst hc
      have hsplit : jsSplit (a ++ ['\n']) = jsSplit a ++ [[]] := by
        have := jsSplit_append_newline a []
        simpa [jsSplit] using this
      have hlast : (jsSplit (a ++ ['\n'])).getLast? = some [] := by
        rw [hsplit]; exact List.getLast?_concat _
      rw [nlSplit_of_getLast_nilSeg hlast, hsplit]
      simp [jsSplit_length, List.getLast?_concat]
    · obtain ⟨init, lastSeg, h1, h2⟩ := jsSplit_concat hc a
      obtain ⟨x, xs, hxx⟩ : ∃ x xs, lastSeg ++ [c] = x :: xs := by
        cases lastSeg with
        | nil => exact ⟨c, [], rfl⟩
        | cons u us => exact ⟨u, us ++ [c], rfl⟩
      have hlast : (jsSplit (a ++ [c])).getLast? = some (x :: xs) := by
        rw [h2, hxx]; exact List.getLast?_concat _
      rw [nlSplit_of_getLast_cons hlast, h2, hxx]
      have hinit : init.length = a.count '\n' := by
        have := jsSplit_length a
        rw [h1] at this
        simpa using this
      have hcount : (a ++ [c]).count '\n' = a.count '\n' := by
        simp [List.count_append, List.count_eq_zero, Ne.symm hc]
      have hlastc : (a ++ [c]).getLast? = some c := List.getLast?_concat _
      simp [hcount, hlastc, hc, hinit]

theorem normEOL_nil_iff (s : List Char) : normEOL s = [] ↔ s = [] := by
  induction s using normEOL.induct with
  | case1 => simp [normEOL]
  | case2 r ih => simp [normEOL]
  | case3 r hr ih => simp [normEOL]
  | case4 c r h1 h2 ih => simp [normEOL]

theorem normEOL_count (s : List Char) : (normEOL s).count '\n' = termCount s := by
  induction s using normEOL.induct with
  | case1 => simp [normEOL, termCount]
  | case2 r ih => simp [normEOL, termCount, List.count_cons, ih]; omega
  | case3 r hr ih => simp [normEOL, termCount, List.count_cons, ih]; omega
  | case4 c r h1 h2 ih =>
    have h2x : c ≠ '\r' := fun h => h2 h
    by_cases hc : c = '\n'
    · subst hc
      simp [normEOL, termCount, List.count_cons, ih]
      omega
    · simp [normEOL, termCount, List.count_cons, ih, hc, h2x]

theorem getLast?_cons_of_ne {α : Type} (x : α) {l : List α} (h : l ≠ []) :
    (x :: l).getLast? = l.getLast? := by
  cases l with
  | nil => exact absurd rfl h
  | cons y t => exact List.getLast?_cons_cons

theorem normEOL_getLast (s : List Char) :
    (normEOL s).getLast? = some '\n' ↔
      (s.getLast? = some '\n' ∨ s.getLast? = some '\r') := by
  induction s using normEOL.induct with
  | case1 => simp [normEOL]
  | case2 r ih =>
    by_cases hr0 : r = []
    · subst hr0; simp [normEOL]
    · have hne : normEOL r ≠ [] := by
        intro h; exact hr0 ((normEOL_nil_iff r).mp h)
      rw [show normEOL ('\r' :: '\n' :: r) = '\n' :: normEOL r from by simp [normEOL]]
      rw [getLast?_cons_of_ne _ hne, ih]
      rw [getLast?_cons_of_ne _ (by simp : ('\n' :: r) ≠ []), getLast?_cons_of_ne _ hr0]
  | case3 r hr ih =>
    by_cases hr0 : r = []
    · subst hr0; simp [normEOL]
    · have hne : normEOL r ≠ [] := by
        intro h; exact hr0 ((normEOL_nil_iff r).mp h)
      rw [show normEOL ('\r' :: r) = '\n' :: normEOL r from by simp [normEOL]]
      rw [getLast?_cons_of_ne _ hne, ih, getLast?_cons_of_ne _ hr0]
  | case4 c r h1 h2 ih =>
    have h2x : c ≠ '\r' := fun h => h2 h
    by_cases hr0 : r = []
    · subst hr0
      constructor
      · intro h
        simp [normEOL] at h
        simp [h]
      · intro h
        simp at h
        rcases h with h | h
        · simp [normEOL, h]
        · exact absurd h h2x
    · have hne : normEOL r ≠ [] := by
        intro h; exact hr0 ((normEOL_nil_iff r).mp h)
      rw [show normEOL (c :: r) = c :: normEOL r from by simp [normEOL]]
      rw [getLast?_cons_of_ne _ hne, ih, getLast?_cons_of_ne _ hr0]

theorem splitLines_length (s : List Char) :
    (splitLines s).length =
      termCount s +
        (if s.getLast? = some '\n' ∨ s.getLast? = some '\r' ∨ s = [] then 0 else 1) := by
  have h := nlSplit_length (normEOL s)
  rw [normEOL_count] at h
  have hcond : ((normEOL s).getLast? = some '\n' ∨ normEOL s = []) ↔
      (s.getLast? = some '\n' ∨ s.getLast? = some '\r' ∨ s = []) := by
    rw [normEOL_getLast, normEOL_nil_iff]
    tauto
  rw [splitLines, h, if_congr hcond rfl rfl]

theorem validateJSONL_totalLines (input : List Char) :
    (validateJSONL input).totalLines = (splitLines input).length := by
  simp [validateJSONL, runLines_fst]

/-! ## Digit and printer lemmas -/

theorem digitChar_isDigit : ∀ d, d < 10 → (digitChar d).isDigit = true := by decide

theorem digitChar_not_ws : ∀ d, d < 10 → isWsChar (digitChar d) = false := by decide

theorem digitVal_digitChar : ∀ d, d < 10 → digitVal (digitChar d) = d := by decide

theorem digitChar_eq_zero_iff : ∀ d, d < 10 → (digitChar d = '0' ↔ d = 0) := by decide

theorem digitChar_ne_nl : ∀ d, d < 10 → digitChar d ≠ '\n' := by decide

theorem hexVal_hexDigit : ∀ n, n < 16 → hexVal (hexDigit n) = some n := by decide

theorem hexDigit_ne_nl : ∀ n, n < 16 → hexDigit n ≠ '\n' := by decide

theorem isDigit_ne_nl {c : Char} (h : c.isDigit = true) : c ≠ '\n' := by
  intro hc
  subst hc
  simp [Char.isDigit] at h

theorem natChars_all_digits (n : Nat) : ∀ c ∈ natChars n, c.isDigit = true := by
  unfold natChars
  by_cases h : n = 0
  · intro c hc
    rw [if_pos h] at hc
    simp at hc
    subst hc
    decide
  · intro c hc
    rw [if_neg h] at hc
    simp only [List.mem_map, List.mem_reverse] at hc
    obtain ⟨d, hd, rfl⟩ := hc
    exact digitChar_isDigit d (Nat.digits_lt_base (by norm_num) hd)

theorem natChars_ne_nil (n : Nat) : natChars n ≠ [] := by
  unfold natChars
  by_cases h : n = 0
  · simp [h]
  · have hnil : Nat.digits 10 n ≠ [] := Nat.digits_ne_nil_iff_ne_zero.mpr h
    simp [h, hnil]

theorem natChars_head_ne_zero {n : Nat} (hn : n ≠ 0) :
    ∀ hd, (natChars n).head? = some hd → hd ≠ '0' := by
  intro hd hhd
  unfold natChars at hhd
  rw [if_neg hn, List.head?_map, List.head?_reverse] at hhd
  have hnil : Nat.digits 10 n ≠ [] := Nat.digits_ne_nil_iff_ne_zero.mpr hn
  have hgl : (Nat.digits 10 n).getLast? = some ((Nat.digits 10 n).getLast hnil) :=
    List.getLast?_eq_getLast _ hnil
  rw [hgl] at hhd
  have hlast := Nat.getLast_digit_ne_zero 10 hn
  have hmem : (Nat.digits 10 n).getLast hnil ∈ Nat.digits 10 n := List.getLast_mem hnil
  have hlt : (Nat.digits 10 n).getLast hnil < 10 := Nat.digits_lt_base (by norm_num) hmem
  have heq : digitChar ((Nat.digits 10 n).getLast hnil) = hd := by
    simpa using hhd
  intro hcon
  rw [← heq] at hcon
  exact hlast ((digitChar_eq_zero_iff _ hlt).mp hcon)

theorem foldr_eq_ofDigits (L : List Nat) :
    L.foldr (fun d a => 10 * a + d) 0 = Nat.ofDigits 10 L := by
  induction L with
  | nil => simp [Nat.ofDigits_nil]
  | cons d L ih =>
    simp only [List.foldr_cons, ih, Nat.ofDigits_cons]
    omega

theorem map_digitVal_digitChar {l : List Nat} (hl : ∀ d ∈ l, d < 10) :
    l.map (digitVal ∘ digitChar) = l := by
  induction l with
  | nil => rfl
  | cons d t ih =>
    have hd := hl d (by simp)
    simp only [List.map_cons, Function.comp_apply, digitVal_digitChar d hd,
      ih (fun x hx => hl x (by simp [hx]))]

theorem natFromDigits_natChars (n : Nat) :
    natFromDigits ((natChars n).map digitVal) = n := by
  unfold natChars
  by_cases h : n = 0
  · subst h
    decide
  · rw [if_neg h, List.map_map]
    have hmap : (Nat.digits 10 n).reverse.map (digitVal ∘ digitChar) =
        (Nat.digits 10 n).reverse := by
      apply map_digitVal_digitChar
      intro d hd
      rw [List.mem_reverse] at hd
      exact Nat.digits_lt_base (by norm_num) hd
    rw [hmap]
    unfold natFromDigits
    rw [List.foldl_reverse]
    have hfold : (Nat.digits 10 n).foldr (fun x y => 10 * y + x) 0 =
        Nat.ofDigits 10 (Nat.digits 10 n) := foldr_eq_ofDigits _
    rw [hfold]
    exact_mod_cast Nat.ofDigits_digits 10 n


/-! ## Shape lemmas for the printed form -/

theorem isDigit_not_trimWs {c : Char} (h : c.isDigit = true) : isTrimWs c = false := by
  have hb : 48 ≤ c.toNat ∧ c.toNat ≤ 57 := by
    simp [Char.isDigit] at h
    exact ⟨h.1, h.2⟩
  by_contra hcon
  simp [isTrimWs] at hcon
  omega

theorem isDigit_facts {c : Char} (h : c.isDigit = true) :
    isWsChar c = false ∧ c ≠ ']' ∧ c ≠ '\x7d' ∧ c ≠ ',' ∧ c ≠ '\n' := by
  refine ⟨?_, ?_, ?_, ?_, ?_⟩
  · by_contra hw
    have hw2 : isWsChar c = true := by
      cases hcv : isWsChar c with
      | true => rfl
      | false => exact absurd hcv hw
    simp only [isWsChar, Bool.or_eq_true, decide_eq_true_eq] at hw2
    have hc4 : c = ' ' ∨ c = '\t' ∨ c = '\n' ∨ c = '\r' := by tauto
    rcases hc4 with rfl | rfl | rfl | rfl <;> exact absurd h (by decide)
  · rintro rfl; exact absurd h (by decide)
  · rintro rfl; exact absurd h (by decide)
  · rintro rfl; exact absurd h (by decide)
  · rintro rfl; exact absurd h (by decide)

theorem escChar_no_nl (c : Char) : '\n' ∉ escChar c := by
  unfold escChar
  split_ifs with h1 h2 h3 h4 h5 h6 h7 h8
  · decide
  · decide
  · decide
  · decide
  · decide
  · decide
  · decide
  · have hhi : c.toNat / 16 < 16 := by omega
    have hlo : c.toNat % 16 < 16 := Nat.mod_lt _ (by norm_num)
    intro hmem
    simp only [List.mem_cons, List.not_mem_nil, or_false] at hmem
    have e1 : ('\n' : Char) ≠ '\\' := by decide
    have e2 : ('\n' : Char) ≠ 'u' := by decide
    have e3 : ('\n' : Char) ≠ '0' := by decide
    have e4 : ('\n' : Char) ≠ hexDigit (c.toNat / 16) := (hexDigit_ne_nl _ hhi).symm
    have e5 : ('\n' : Char) ≠ hexDigit (c.toNat % 16) := (hexDigit_ne_nl _ hlo).symm
    tauto
  · intro hmem
    simp only [List.mem_singleton] at hmem
    exact h3 hmem.symm

theorem escChars_no_nl (s : List Char) : '\n' ∉ escChars s := by
  induction s with
  | nil => simp [escChars]
  | cons c t ih =>
    simp only [escChars, List.mem_append]
    rintro (h | h)
    · exact escChar_no_nl c h
    · exact ih h

theorem intChars_no_nl (i : Int) : '\n' ∉ intChars i := by
  have hnat : ∀ n : Nat, '\n' ∉ natChars n := by
    intro n hmem
    have := natChars_all_digits n _ hmem
    exact absurd this (by decide)
  unfold intChars
  split_ifs with h
  · intro hmem
    simp only [List.mem_cons] at hmem
    have e1 : ('\n' : Char) ≠ '-' := by decide
    have e2 := hnat i.natAbs
    tauto
  · exact hnat _

theorem printJ_no_nl : ∀ e : Json, '\n' ∉ printJ e := by
  intro e
  induction e using Json.strongInd with
  | hnull => decide
  | hbool b => cases b <;> decide
  | hnum i => exact intChars_no_nl i
  | hstr s =>
    intro hmem
    simp only [printJ, List.mem_cons, List.mem_append, List.mem_singleton] at hmem
    have e1 : ('\n' : Char) ≠ '"' := by decide
    have e2 := escChars_no_nl s
    tauto
  | harr xs ih =>
    cases xs with
    | nil => decide
    | cons x xs =>
      have htail : ∀ ys : List Json, (∀ y ∈ ys, '\n' ∉ printJ y) → '\n' ∉ printTail ys := by
        intro ys
        induction ys with
        | nil => intro _ hmem; simp [printTail] at hmem
        | cons y ys ihy =>
          intro hys hmem
          simp only [printTail, List.mem_cons, List.mem_append] at hmem
          have e1 : ('\n' : Char) ≠ ',' := by decide
          have e2 := hys y (by simp)
          have e3 := ihy (fun z hz => hys z (by simp [hz]))
          tauto
      intro hmem
      simp only [printJ, List.mem_cons, List.mem_append, List.mem_singleton] at hmem
      have e1 : ('\n' : Char) ≠ '[' := by decide
      have e2 := ih x (by simp)
      have e3 := htail xs (fun z hz => ih z (by simp [hz]))
      have e4 : ('\n' : Char) ≠ ']' := by decide
      tauto
  | hobj fs ih =>
    cases fs with
    | nil => decide
    | cons f fs =>
      obtain ⟨k, v⟩ := f
      have htail : ∀ gs : List (List Char × Json), (∀ g ∈ gs, '\n' ∉ printJ g.2) →
          '\n' ∉ printFieldTail gs := by
        intro gs
        induction gs with
        | nil => intro _ hmem; simp [printFieldTail] at hmem
        | cons g gs ihg =>
          obtain ⟨k2, v2⟩ := g
          intro hgs hmem
          simp only [printFieldTail, List.mem_cons, List.mem_append] at hmem
          have e1 : ('\n' : Char) ≠ ',' := by decide
          have e2 : ('\n' : Char) ≠ '"' := by decide
          have e3 : ('\n' : Char) ≠ ':' := by decide
          have e4 := escChars_no_nl k2
          have e5 : '\n' ∉ printJ v2 := hgs (k2, v2) (by simp)
          have e6 := ihg (fun z hz => hgs z (by simp [hz]))
          tauto
      intro hmem
      simp only [printJ, List.mem_cons, List.mem_append, List.mem_singleton] at hmem
      have e1 : ('\n' : Char) ≠ '\x7b' := by decide
      have e2 : ('\n' : Char) ≠ '"' := by decide
      have e3 : ('\n' : Char) ≠ ':' := by decide
      have e4 := escChars_no_nl k
      have e5 : '\n' ∉ printJ v := ih (k, v) (by simp)
      have e6 := htail fs (fun z hz => ih z (by simp [hz]))
      have e7 : ('\n' : Char) ≠ '\x7d' := by decide
      tauto

theorem printJ_head (e : Json) :
    ∃ c t, printJ e = c :: t ∧ isWsChar c = false ∧ isTrimWs c = false ∧
      c ≠ ']' ∧ c ≠ '\x7d' := by
  have lit : ∀ c : Char, c ∈ (['n', 't', 'f', '"', '[', '\x7b', '-'] : List Char) →
      isWsChar c = false ∧ isTrimWs c = false ∧ c ≠ ']' ∧ c ≠ '\x7d' := by decide
  cases e with
  | null => exact ⟨'n', _, rfl, lit 'n' (by decide)⟩
  | bool b =>
    cases b with
    | true => exact ⟨'t', _, rfl, lit 't' (by decide)⟩
    | false => exact ⟨'f', _, rfl, lit 'f' (by decide)⟩
  | num i =>
    by_cases h : i < 0
    · refine ⟨'-', natChars i.natAbs, ?_, lit '-' (by decide)⟩
      simp [printJ, intChars, h]
    · cases hnc : natChars i.toNat with
      | nil => exact absurd hnc (natChars_ne_nil _)
      | cons c t =>
        have hdig : c.isDigit = true :=
          natChars_all_digits _ c (by rw [hnc]; exact List.mem_cons_self c t)
        obtain ⟨hws, hbr, hbc, _, _⟩ := isDigit_facts hdig
        refine ⟨c, t, ?_, hws, isDigit_not_trimWs hdig, hbr, hbc⟩
        simp [printJ, intChars, h, hnc]
  | str s => exact ⟨'"', _, rfl, lit '"' (by decide)⟩
  | arr xs =>
    cases xs with
    | nil => exact ⟨'[', _, rfl, lit '[' (by decide)⟩
    | cons x t => exact ⟨'[', _, rfl, lit '[' (by decide)⟩
  | obj fs =>
    cases fs with
    | nil => exact ⟨'\x7b', _, rfl, lit '\x7b' (by decide)⟩
    | cons f t =>
      obtain ⟨k, v⟩ := f
      exact ⟨'\x7b', _, rfl, lit '\x7b' (by decide)⟩

theorem printJ_length_pos (e : Json) : 1 ≤ (printJ e).length := by
  obtain ⟨c, t, hct, _⟩ := printJ_head e
  simp [hct]

/-! ## The fuel bound -/

theorem jfuel_le : ∀ e : Json, jfuel e ≤ 2 * (printJ e).length := by
  intro e
  induction e using Json.strongInd with
  | hnull => decide
  | hbool b => cases b <;> decide
  | hnum i =>
    have h1 := printJ_length_pos (.num i)
    simp only [jfuel]
    omega
  | hstr s =>
    have h1 := printJ_length_pos (.str s)
    simp only [jfuel]
    omega
  | harr xs ih =>
    have hlist : ∀ ys : List Json, (∀ y ∈ ys, jfuel y ≤ 2 * (printJ y).length) →
        lfuel ys ≤ 2 * (printTail ys).length := by
      intro ys
      induction ys with
      | nil => intro _; simp [lfuel, printTail]
      | cons y ys ihy =>
        intro hys
        have h1 := hys y (by simp)
        have h2 := ihy (fun z hz => hys z (by simp [hz]))
        simp only [lfuel, printTail, List.length_cons, List.length_append]
        omega
    cases xs with
    | nil => decide
    | cons x t =>
      have h1 := ih x (by simp)
      have h2 := hlist t (fun z hz => ih z (by simp [hz]))
      simp only [jfuel, lfuel, printJ, List.length_cons, List.length_append]
      omega
  | hobj fs ih =>
    have hlist : ∀ gs : List (List Char × Json), (∀ g ∈ gs, jfuel g.2 ≤ 2 * (printJ g.2).length) →
        ofuel gs ≤ 2 * (printFieldTail gs).length := by
      intro gs
      induction gs with
      | nil => intro _; simp [ofuel, printFieldTail]
      | cons g gs ihg =>
        obtain ⟨k2, v2⟩ := g
        intro hgs
        have h1 : jfuel v2 ≤ 2 * (printJ v2).length := hgs (k2, v2) (by simp)
        have h2 := ihg (fun z hz => hgs z (by simp [hz]))
        simp only [ofuel, printFieldTail, List.length_cons, List.length_append]
        omega
    cases fs with
    | nil => decide
    | cons f t =>
      obtain ⟨k, v⟩ := f
      have h1 : jfuel v ≤ 2 * (printJ v).length := ih (k, v) (by simp)
      have h2 := hlist t (fun z hz => ih z (by simp [hz]))
      simp only [jfuel, ofuel, printJ, List.length_cons, List.length_append]
      omega


/-! ## Parser round trip -/

theorem numStop_facts {rest : List Char} (h : numStop rest = true) :
    ∀ c, rest.head? = some c → c.isDigit = false ∧ c ≠ '.' ∧ c ≠ 'e' ∧ c ≠ 'E' := by
  intro c hc
  cases rest with
  | nil => simp at hc
  | cons d t =>
    simp only [List.head?_cons, Option.some.injEq] at hc
    subst hc
    simp only [numStop, Bool.not_eq_eq_eq_not, Bool.not_true, Bool.or_eq_false_iff,
      decide_eq_false_iff_not] at h
    exact ⟨h.1.1.1, h.1.1.2, h.1.2, h.2⟩

theorem readStr_esc : ∀ s rest, readStr (escChars s ++ '"' :: rest) = .ok (s, rest) := by
  intro s
  induction s with
  | nil => intro rest; rw [readStr.eq_def]; simp [escChars]
  | cons c s ih =>
    intro rest
    show readStr ((escChar c ++ escChars s) ++ '"' :: rest) = _
    rw [List.append_assoc]
    unfold escChar
    split_ifs with h1 h2 h3 h4 h5 h6 h7 h8
    · subst h1; rw [readStr.eq_def]; simp [escUn, ih]
    · subst h2; rw [readStr.eq_def]; simp [escUn, ih]
    · subst h3; rw [readStr.eq_def]; simp [escUn, ih]
    · subst h4; rw [readStr.eq_def]; simp [escUn, ih]
    · subst h5; rw [readStr.eq_def]; simp [escUn, ih]
    · subst h6; rw [readStr.eq_def]; simp [escUn, ih]
    · subst h7; rw [readStr.eq_def]; simp [escUn, ih]
    · have hhi : c.toNat / 16 < 16 := by omega
      have hlo : c.toNat % 16 < 16 := Nat.mod_lt _ (by norm_num)
      have h0 : hexVal '0' = some 0 := by decide
      have hrec : 16 * (c.toNat / 16) + c.toNat % 16 = c.toNat := Nat.div_add_mod _ 16
      rw [readStr.eq_def]
      simp only [List.cons_append, List.nil_append]
      simp [h0, hexVal_hexDigit _ hhi, hexVal_hexDigit _ hlo, ih, hrec, Char.ofNat_toNat]
    · rw [readStr.eq_def]
      simp [h1, h2, h8, ih]

theorem pNat_natChars (n : Nat) (rest : List Char) (h : numStop rest = true) :
    pNat (natChars n ++ rest) = .ok (n, rest) := by
  have hall : ∀ c ∈ natChars n, c.isDigit = true := natChars_all_digits n
  have hstop : ∀ c, rest.head? = some c → c.isDigit = false :=
    fun c hc => (numStop_facts h c hc).1
  have htake : (natChars n ++ rest).takeWhile (fun c => c.isDigit) = natChars n :=
    takeWhile_append_all rest hall hstop
  have hdrop : (natChars n ++ rest).dropWhile (fun c => c.isDigit) = rest :=
    dropWhile_append_all rest hall hstop
  have hguard : ¬(1 < (natChars n).length ∧ (natChars n).head? = some '0') := by
    by_cases hn : n = 0
    · subst hn; decide
    · rintro ⟨_, hh⟩
      exact natChars_head_ne_zero hn '0' hh rfl
  have hne : (natChars n).isEmpty = false := by
    cases hnc : natChars n with
    | nil => exact absurd hnc (natChars_ne_nil n)
    | cons a b => rfl
  unfold pNat
  rw [htake, hdrop]
  simp only [hne, Bool.false_eq_true, if_false, if_neg hguard]
  cases rest with
  | nil => simp [natFromDigits_natChars]
  | cons c t =>
    obtain ⟨hdig, hdot, he, hE⟩ := numStop_facts h c rfl
    simp [hdot, he, hE, natFromDigits_natChars]

theorem isDigit_chain {c : Char} (h : c.isDigit = true) :
    c ≠ '\x7b' ∧ c ≠ '[' ∧ c ≠ '"' ∧ c ≠ 'n' ∧ c ≠ 't' ∧ c ≠ 'f' ∧ c ≠ '-' := by
  refine ⟨?_, ?_, ?_, ?_, ?_, ?_, ?_⟩ <;> (rintro rfl; exact absurd h (by decide))

theorem pValue_print (e : Json) : ∀ fuel rest, jfuel e ≤ fuel → numStop rest = true →
    pValue fuel (printJ e ++ rest) = .ok (e, rest) := by
  induction e using Json.strongInd with
  | hnull =>
    intro fuel rest hf _
    cases fuel with
    | zero => simp [jfuel] at hf
    | succ f => simp [printJ, pValue, skipWs, isWsChar, matchLit, List.isPrefixOf]
  | hbool b =>
    intro fuel rest hf _
    cases fuel with
    | zero => simp [jfuel] at hf
    | succ f =>
      cases b <;> simp [printJ, pValue, skipWs, isWsChar, matchLit, List.isPrefixOf]
  | hnum i =>
    intro fuel rest hf hstop
    cases fuel with
    | zero => simp [jfuel] at hf
    | succ f =>
      by_cases hneg : i < 0
      · have hprint : printJ (.num i) = '-' :: natChars i.natAbs := by
          simp [printJ, intChars, hneg]
        have hval : ((i.natAbs : Int)) = -i := by omega
        rw [hprint]
        simp only [pValue, List.cons_append]
        rw [skipWs_cons_of _ (by decide)]
        simp [pNat_natChars _ _ hstop, hval]
      · have hprint : printJ (.num i) = natChars i.toNat := by
          simp [printJ, intChars, hneg]
        rw [hprint]
        cases hnc : natChars i.toNat with
        | nil => exact absurd hnc (natChars_ne_nil _)
        | cons c t =>
          have hdig : c.isDigit = true :=
            natChars_all_digits _ c (by rw [hnc]; exact List.mem_cons_self c t)
          obtain ⟨hws, _, _, _, _⟩ := isDigit_facts hdig
          obtain ⟨hb1, hb2, hb3, hb4, hb5, hb6, hb7⟩ := isDigit_chain hdig
          have hval : ((i.toNat : Int)) = i := Int.toNat_of_nonneg (by omega)
          have hpn : pNat (c :: (t ++ rest)) = .ok (i.toNat, rest) := by
            rw [show c :: (t ++ rest) = natChars i.toNat ++ rest from by rw [hnc]; rfl]
            exact pNat_natChars _ _ hstop
          simp only [List.cons_append, pValue]
          rw [skipWs_cons_of _ hws]
          simp [hb1, hb2, hb3, hb4, hb5, hb6, hb7, hdig, hpn, hval]
  | hstr s =>
    intro fuel rest hf _
    cases fuel with
    | zero => simp [jfuel] at hf
    | succ f =>
      have hprint : printJ (.str s) ++ rest = '"' :: (escChars s ++ '"' :: rest) := by
        simp [printJ]
      rw [hprint]
      simp only [pValue]
      rw [skipWs_cons_of _ (by decide)]
      simp [readStr_esc s rest]
  | harr xs ih =>
    intro fuel rest hf hstop
    cases xs with
    | nil =>
      cases fuel with
      | zero => simp [jfuel, lfuel] at hf
      | succ f => simp [printJ, pValue, skipWs, isWsChar]
    | cons x xs =>
      have haux : ∀ zs z,
          (∀ y ∈ z :: zs, ∀ f2 r2, jfuel y ≤ f2 → numStop r2 = true →
            pValue f2 (printJ y ++ r2) = .ok (y, r2)) →
          ∀ fuel2 r2, lfuel (z :: zs) ≤ fuel2 → numStop r2 = true →
          pElems fuel2 (printJ z ++ (printTail zs ++ ']' :: r2)) = .ok (z :: zs, r2) := by
        intro zs
        induction zs with
        | nil =>
          intro z hz fuel2 r2 hfz hstop2
          cases fuel2 with
          | zero => simp [lfuel] at hfz
          | succ f2 =>
            have hbz : jfuel z ≤ f2 := by simp only [lfuel] at hfz; omega
            have hz1 := hz z (by simp) f2 (']' :: r2) hbz (by rfl)
            simp only [printTail, List.nil_append]
            simp only [pElems, hz1]
            rw [skipWs_cons_of _ (by decide)]
            rfl
        | cons z2 zs ihz =>
          intro z hz fuel2 r2 hfz hstop2
          cases fuel2 with
          | zero => simp [lfuel] at hfz
          | succ f2 =>
            have hbz : jfuel z ≤ f2 := by simp only [lfuel] at hfz; omega
            have hbrest : lfuel (z2 :: zs) ≤ f2 := by
              simp only [lfuel] at hfz ⊢; omega
            have htl : printTail (z2 :: zs) ++ ']' :: r2 =
                ',' :: (printJ z2 ++ (printTail zs ++ ']' :: r2)) := by
              simp [printTail]
            rw [htl]
            have hz1 := hz z (by simp) f2
              (',' :: (printJ z2 ++ (printTail zs ++ ']' :: r2))) hbz (by rfl)
            have hrest := ihz z2 (fun y hy => hz y (List.mem_cons_of_mem _ hy))
              f2 r2 hbrest hstop2
            simp only [pElems, hz1]
            rw [skipWs_cons_of _ (by decide)]
            simp [hrest]
      cases fuel with
      | zero => simp [jfuel] at hf
      | succ f =>
        have hb : lfuel (x :: xs) ≤ f := by simp only [jfuel] at hf; omega
        have hshape : printJ (.arr (x :: xs)) ++ rest =
            '[' :: (printJ x ++ (printTail xs ++ ']' :: rest)) := by
          simp [printJ]
        rw [hshape]
        obtain ⟨c0, t0, hct, hws0, _, hbr0, _⟩ := printJ_head x
        have hmain := haux xs x ih f rest hb hstop
        simp only [pValue]
        rw [skipWs_cons_of _ (by decide)]
        simp only []
        rw [show printJ x ++ (printTail xs ++ ']' :: rest) =
            c0 :: (t0 ++ (printTail xs ++ ']' :: rest)) from by rw [hct, List.cons_append]]
        rw [skipWs_cons_of _ hws0]
        rw [show c0 :: (t0 ++ (printTail xs ++ ']' :: rest)) =
            printJ x ++ (printTail xs ++ ']' :: rest) from by rw [hct, List.cons_append]]
        simp [hbr0, hmain]
        rw [show printJ x ++ (printTail xs ++ ']' :: rest) =
            c0 :: (t0 ++ (printTail xs ++ ']' :: rest)) from by rw [hct, List.cons_append]]
        simp [hbr0]
  | hobj fs ih =>
    intro fuel rest hf hstop
    cases fs with
    | nil =>
      cases fuel with
      | zero => simp [jfuel, ofuel] at hf
      | succ f => simp [printJ, pValue, skipWs, isWsChar]
    | cons f0 fs =>
      obtain ⟨k, v⟩ := f0
      have haux : ∀ gs kk vv,
          (∀ g ∈ (kk, vv) :: gs, ∀ f2 r2, jfuel (Prod.snd g) ≤ f2 → numStop r2 = true →
            pValue f2 (printJ (Prod.snd g) ++ r2) = .ok (Prod.snd g, r2)) →
          ∀ fuel2 r2, ofuel ((kk, vv) :: gs) ≤ fuel2 → numStop r2 = true →
          pFields fuel2 ('"' :: (escChars kk ++ '"' :: ':' ::
            (printJ vv ++ (printFieldTail gs ++ '\x7d' :: r2)))) = .ok ((kk, vv) :: gs, r2) := by
        intro gs
        induction gs with
        | nil =>
          intro kk vv hg fuel2 r2 hfz hstop2
          cases fuel2 with
          | zero => simp [ofuel] at hfz
          | succ f2 =>
            have hbv : jfuel vv ≤ f2 := by simp only [ofuel] at hfz; omega
            have hv1 := hg (kk, vv) (by simp) f2 ('\x7d' :: r2) hbv (by rfl)
            simp only [printFieldTail, List.nil_append]
            simp only [pFields]
            rw [skipWs_cons_of _ (by decide)]
            simp only []
            rw [readStr_esc kk (':' :: (printJ vv ++ '\x7d' :: r2))]
            simp only []
            rw [skipWs_cons_of _ (by decide)]
            simp only [hv1]
            rw [skipWs_cons_of _ (by decide)]
            rfl
        | cons g2 gs ihg =>
          obtain ⟨k2, v2⟩ := g2
          intro kk vv hg fuel2 r2 hfz hstop2
          cases fuel2 with
          | zero => simp [ofuel] at hfz
          | succ f2 =>
            have hbv : jfuel vv ≤ f2 := by simp only [ofuel] at hfz; omega
            have hbrest : ofuel ((k2, v2) :: gs) ≤ f2 := by
              simp only [ofuel] at hfz ⊢; omega
            have htl : printFieldTail ((k2, v2) :: gs) ++ '\x7d' :: r2 =
                ',' :: ('"' :: (escChars k2 ++ '"' :: ':' ::
                  (printJ v2 ++ (printFieldTail gs ++ '\x7d' :: r2)))) := by
              simp [printFieldTail]
            rw [htl]
            have hv1 := hg (kk, vv) (by simp) f2
              (',' :: ('"' :: (escChars k2 ++ '"' :: ':' ::
                (printJ v2 ++ (printFieldTail gs ++ '\x7d' :: r2))))) hbv (by rfl)
            have hrest := ihg k2 v2 (fun g hgm => hg g (List.mem_cons_of_mem _ hgm))
              f2 r2 hbrest hstop2
            simp only [pFields]
            rw [skipWs_cons_of _ (by decide)]
            simp only []
            rw [readStr_esc kk (':' :: (printJ vv ++
              (',' :: ('"' :: (escChars k2 ++ '"' :: ':' ::
                (printJ v2 ++ (printFieldTail gs ++ '\x7d' :: r2)))))))]
            simp only []
            rw [skipWs_cons_of _ (by decide)]
            simp only [hv1]
            rw [skipWs_cons_of _ (by decide)]
            simp [hrest]
      cases fuel with
      | zero => simp [jfuel] at hf
      | succ f =>
        have hb : ofuel ((k, v) :: fs) ≤ f := by simp only [jfuel] at hf; omega
        have hshape : printJ (.obj ((k, v) :: fs)) ++ rest =
            '\x7b' :: ('"' :: (escChars k ++ '"' :: ':' ::
              (printJ v ++ (printFieldTail fs ++ '\x7d' :: rest)))) := by
          simp [printJ]
        rw [hshape]
        have hmain := haux fs k v ih f rest hb hstop
        simp only [pValue]
        rw [skipWs_cons_of _ (by decide)]
        simp only []
        rw [skipWs_cons_of _ (by decide)]
        simp [hmain]

theorem parseJson_printJ (e : Json) : parseJson (printJ e) = .ok e := by
  have h1 : pValue (2 * (printJ e).length + 2) (printJ e ++ []) = .ok (e, []) :=
    pValue_print e _ [] (by have := jfuel_le e; omega) (by decide)
  rw [List.append_nil] at h1
  unfold parseJson
  rw [h1]
  rfl

/-! ## The append-only log round trip -/

theorem foldl_appendLog (es : List Json) : ∀ start : List Char,
    es.foldl appendLog (some start) =
      some (start ++ (es.map (fun e => printJ e ++ ['\n'])).flatten) := by
  induction es with
  | nil => intro start; simp [List.flatten]
  | cons e es ih =>
    intro start
    simp only [List.foldl_cons, appendLog, Option.getD_some, List.map_cons, List.flatten,
      ih (start ++ printJ e ++ ['\n'])]
    simp [List.append_assoc]

theorem jsSplit_printed (es : List Json) :
    jsSplit ((es.map (fun e => printJ e ++ ['\n'])).flatten) = es.map printJ ++ [[]] := by
  induction es with
  | nil => simp [List.flatten, jsSplit]
  | cons e es ih =>
    have hshape : ((e :: es).map (fun e => printJ e ++ ['\n'])).flatten =
        printJ e ++ '\n' :: (es.map (fun e => printJ e ++ ['\n'])).flatten := by
      simp [List.flatten, List.append_assoc]
    rw [hshape, jsSplit_append_newline, ih,
      jsSplit_no_newline (printJ e) (printJ_no_nl e)]
    simp

theorem jsTrim_printJ_ne_nil (e : Json) : jsTrim (printJ e) ≠ [] := by
  obtain ⟨c, t, hct, _, htw, _, _⟩ := printJ_head e
  rw [hct]
  exact jsTrim_ne_nil_of_head htw

theorem filter_printed (es : List Json) :
    (es.map printJ ++ [[]]).filter (fun l => !(jsTrim l).isEmpty) = es.map printJ := by
  rw [List.filter_append]
  have h1 : ([([] : List Char)].filter (fun l => !(jsTrim l).isEmpty)) = [] := rfl
  have h2 : (es.map printJ).filter (fun l => !(jsTrim l).isEmpty) = es.map printJ := by
    rw [List.filter_eq_self]
    intro a ha
    simp only [List.mem_map] at ha
    obtain ⟨e, _, rfl⟩ := ha
    have := jsTrim_printJ_ne_nil e
    simp [List.isEmpty_iff, this]
  rw [h1, h2, List.append_nil]

theorem mapParse_printed (es : List Json) : mapParse (es.map printJ) = .ok es := by
  induction es with
  | nil => rfl
  | cons e es ih => simp [mapParse, parseJson_printJ e, ih]

theorem listAll_appendLog (es : List Json) :
    listAll (es.foldl appendLog (some [])) = .ok es.reverse := by
  rw [foldl_appendLog es []]
  simp only [List.nil_append, listAll]
  rw [jsSplit_printed, filter_printed, mapParse_printed]

theorem listAll_appendLog_none (es : List Json) :
    listAll (es.foldl appendLog none) = .ok es.reverse := by
  cases es with
  | nil => rfl
  | cons e es =>
    have hstep : appendLog none e = appendLog (some []) e := rfl
    calc listAll ((e :: es).foldl appendLog none)
        = listAll ((e :: es).foldl appendLog (some [])) := by
          simp only [List.foldl_cons, hstep]
      _ = .ok (e :: es).reverse := listAll_appendLog (e :: es)

/-! ## Message disjointness and the per-line validity bridge -/

theorem field_checks (p : Option Json) :
    ((!truthyOpt p || !isStringOpt p) = false ∧ lengthExceeds p = false) ↔ fieldOk p = true := by
  cases p with
  | none => simp [truthyOpt, isStringOpt, lengthExceeds, fieldOk, jsLengthVal, toNumber, numGt]
  | some v =>
    cases v with
    | null => simp [truthyOpt, isStringOpt, lengthExceeds, fieldOk, jsLengthVal, toNumber, numGt]
    | bool b => cases b <;> simp [truthyOpt, isStringOpt, lengthExceeds, fieldOk, jsLengthVal, toNumber, numGt]
    | num i => simp [truthyOpt, isStringOpt, lengthExceeds, fieldOk, jsLengthVal, toNumber, numGt]
    | str s =>
      simp only [truthyOpt, isStringOpt, lengthExceeds, fieldOk, jsLengthVal, toNumber, numGt,
        Bool.or_eq_false_iff, Bool.not_eq_false, Bool.not_eq_false', Bool.and_eq_false_iff,
        Bool.and_eq_true, Bool.not_eq_true, List.isEmpty_iff,
        decide_eq_true_eq, decide_eq_false_iff_not, ne_eq, not_not]
      constructor
      · rintro ⟨⟨hs, _⟩, hlen⟩
        rcases hlen with hlen | hlen
        · exact absurd hlen hs
        · refine ⟨by simp [List.isEmpty_iff, hs], ?_⟩
          omega
      · rintro ⟨hs, hlen⟩
        have hs2 : ¬s = [] := by simpa [List.isEmpty_iff] using hs
        have hlen2 : s.length ≤ 4096 := by simpa using hlen
        exact ⟨⟨hs2, trivial⟩, Or.inr (by omega)⟩
    | arr xs => simp [truthyOpt, isStringOpt, lengthExceeds, fieldOk, jsLengthVal, toNumber, numGt]
    | obj fs => simp [truthyOpt, isStringOpt, lengthExceeds, fieldOk, jsLengthVal, toNumber, numGt]

theorem checkParsed_null (n : Nat) : checkParsed n .null = [invalidJsonMsg n nullAccessMsg] := rfl

theorem checkParsed_empty_iff (n : Nat) (v : Json) :
    checkParsed n v = [] ↔
      (v ≠ .null ∧ fieldOk (getField v promptKey) = true ∧
        fieldOk (getField v completionKey) = true) := by
  cases hv : v with
  | null => simp [checkParsed]
  | bool b =>
    simp only [checkParsed, List.append_eq_nil]
    constructor
    · rintro ⟨⟨⟨h1, h2⟩, h3⟩, h4⟩
      refine ⟨by simp, ?_, ?_⟩
      · exact (field_checks _).mp ⟨by simpa using h1, by simpa using h3⟩
      · exact (field_checks _).mp ⟨by simpa using h2, by simpa using h4⟩
    · rintro ⟨_, hp, hc⟩
      obtain ⟨hp1, hp2⟩ := (field_checks _).mpr hp
      obtain ⟨hc1, hc2⟩ := (field_checks _).mpr hc
      exact ⟨⟨⟨by simp [hp1], by simp [hc1]⟩, by simp [hp2]⟩, by simp [hc2]⟩
  | num i =>
    simp only [checkParsed, List.append_eq_nil]
    constructor
    · rintro ⟨⟨⟨h1, h2⟩, h3⟩, h4⟩
      refine ⟨by simp, ?_, ?_⟩
      · exact (field_checks _).mp ⟨by simpa using h1, by simpa using h3⟩
      · exact (field_checks _).mp ⟨by simpa using h2, by simpa using h4⟩
    · rintro ⟨_, hp, hc⟩
      obtain ⟨hp1, hp2⟩ := (field_checks _).mpr hp
      obtain ⟨hc1, hc2⟩ := (field_checks _).mpr hc
      exact ⟨⟨⟨by simp [hp1], by simp [hc1]⟩, by simp [hp2]⟩, by simp [hc2]⟩
  | str s =>
    simp only [checkParsed, List.append_eq_nil]
    constructor
    · rintro ⟨⟨⟨h1, h2⟩, h3⟩, h4⟩
      refine ⟨by simp, ?_, ?_⟩
      · exact (field_checks _).mp ⟨by simpa using h1, by simpa using h3⟩
      · exact (field_checks _).mp ⟨by simpa using h2, by simpa using h4⟩
    · rintro ⟨_, hp, hc⟩
      obtain ⟨hp1, hp2⟩ := (field_checks _).mpr hp
      obtain ⟨hc1, hc2⟩ := (field_checks _).mpr hc
      exact ⟨⟨⟨by simp [hp1], by simp [hc1]⟩, by simp [hp2]⟩, by simp [hc2]⟩
  | arr xs =>
    simp only [checkParsed, List.append_eq_nil]
    constructor
    · rintro ⟨⟨⟨h1, h2⟩, h3⟩, h4⟩
      refine ⟨by simp, ?_, ?_⟩
      · exact (field_checks _).mp ⟨by simpa using h1, by simpa using h3⟩
      · exact (field_checks _).mp ⟨by simpa using h2, by simpa using h4⟩
    · rintro ⟨_, hp, hc⟩
      obtain ⟨hp1, hp2⟩ := (field_checks _).mpr hp
      obtain ⟨hc1, hc2⟩ := (field_checks _).mpr hc
      exact ⟨⟨⟨by simp [hp1], by simp [hc1]⟩, by simp [hp2]⟩, by simp [hc2]⟩
  | obj fs =>
    simp only [checkParsed, List.append_eq_nil]
    constructor
    · rintro ⟨⟨⟨h1, h2⟩, h3⟩, h4⟩
      refine ⟨by simp, ?_, ?_⟩
      · exact (field_checks _).mp ⟨by simpa using h1, by simpa using h3⟩
      · exact (field_checks _).mp ⟨by simpa using h2, by simpa using h4⟩
    · rintro ⟨_, hp, hc⟩
      obtain ⟨hp1, hp2⟩ := (field_checks _).mpr hp
      obtain ⟨hc1, hc2⟩ := (field_checks _).mpr hc
      exact ⟨⟨⟨by simp [hp1], by simp [hc1]⟩, by simp [hp2]⟩, by simp [hc2]⟩

theorem checkLine_empty_iff (n : Nat) (l : List Char) :
    checkLine n l = [] ↔ amendedLineValid l = true := by
  unfold checkLine amendedLineValid
  cases hp : parseJson l with
  | error e => simp
  | ok v =>
    rw [checkParsed_empty_iff]
    cases v with
    | null => simp [getField, fieldOk]
    | bool b => simp
    | num i => simp
    | str s => simp
    | arr xs => simp
    | obj fs => simp

theorem validateJSONL_errors (input : List Char) :
    (validateJSONL input).errors = (runLines 0 (splitLines input)).2 := rfl

theorem validateJSONL_isValid (input : List Char) :
    (validateJSONL input).isValid = (splitLines input).all amendedLineValid := by
  have key : ∀ ls : List (List Char), ∀ n, ((runLines n ls).2 = [] ↔ ls.all amendedLineValid = true) := by
    intro ls
    induction ls with
    | nil => intro n; simp [runLines]
    | cons l ls ih =>
      intro n
      simp only [runLines, List.append_eq_nil, List.all_cons, Bool.and_eq_true]
      rw [checkLine_empty_iff (n + 1) l, ih (n + 1)]
  simp only [validateJSONL]
  by_cases h : (runLines 0 (splitLines input)).2 = []
  · rw [h, (key _ 0).mp h]
    rfl
  · have h2 : (splitLines input).all amendedLineValid = false := by
      cases hall : (splitLines input).all amendedLineValid with
      | false => rfl
      | true => exact absurd ((key _ 0).mpr hall) h
    rw [h2]
    simp only [beq_eq_false_iff_ne, ne_eq, List.length_eq_zero]
    simpa using h

theorem mapParse_error : ∀ (ls : List (List Char)) (l : List Char) (msg : String),
    l ∈ ls → parseJson l = .error msg → ∃ e, mapParse ls = .error e := by
  intro ls
  induction ls with
  | nil => intro l msg hmem _; simp at hmem
  | cons a ls ih =>
    intro l msg hmem herr
    cases hpa : parseJson a with
    | error e => exact ⟨e, by simp [mapParse, hpa]⟩
    | ok v =>
      rcases List.mem_cons.mp hmem with rfl | hmem2
      · rw [hpa] at herr; exact absurd herr (by simp)
      · obtain ⟨e, he⟩ := ih l msg hmem2 herr
        exact ⟨e, by simp [mapParse, hpa, he]⟩

theorem jsSplit_newline_cons (b : List Char) : jsSplit ('\n' :: b) = [] :: jsSplit b := by
  cases hb : jsSplit b with
  | nil => exact absurd hb (jsSplit_ne_nil b)
  | cons h t => simp [jsSplit, hb]

theorem listAll_blank_insensitive (a b : List Char) :
    listAll (some (a ++ '\n' :: '\n' :: b)) = listAll (some (a ++ '\n' :: b)) := by
  have h1 : jsSplit (a ++ '\n' :: '\n' :: b) = jsSplit a ++ ([] :: jsSplit b) := by
    have := jsSplit_append_newline a ('\n' :: b)
    rw [this, jsSplit_newline_cons]
  have h2 : jsSplit (a ++ '\n' :: b) = jsSplit a ++ jsSplit b := jsSplit_append_newline a b
  simp only [listAll, h1, h2, List.filter_append, List.filter_cons]
  rfl

theorem listAll_malformed {content l : List Char} {msg : String}
    (hmem : l ∈ (jsSplit content).filter (fun l2 => !(jsTrim l2).isEmpty))
    (herr : parseJson l = .error msg) :
    ∃ e, listAll (some content) = .error e := by
  obtain ⟨e, he⟩ := mapParse_error _ l msg hmem herr
  exact ⟨e, by simp [listAll, he]⟩

/-! ## Claim theorems -/

/-- Claim C1, counterexample: the line with an empty-string `prompt`
satisfies the claimed validity condition (parses as JSON, both fields
present, strings, length at most 4096) yet the validator flags it, because
JavaScript truthiness rejects the empty string. -/
theorem C1_counterexample :
    specLineValid ("\x7b\"prompt\":\"\",\"completion\":\"b\"\x7d").data = true ∧
    checkLine 1 ("\x7b\"prompt\":\"\",\"completion\":\"b\"\x7d").data ≠ [] ∧
    (validateJSONL ("\x7b\"prompt\":\"\",\"completion\":\"b\"\x7d").data).isValid = false := by
  refine ⟨by decide, by decide, by decide⟩

/-- Claim C1, amended: a line contributes no error entries iff it parses
as a single JSON value and both the `prompt` and `completion` fields are
present, are non-empty strings, and have length at most 4096 characters;
`isValid` of the returned record is true iff every line satisfies this
condition. -/
theorem C1_amended :
    ∀ input : List Char,
      (validateJSONL input).isValid = (splitLines input).all amendedLineValid ∧
      ∀ n l, (checkLine n l = [] ↔ amendedLineValid l = true) := by
  intro input
  exact ⟨validateJSONL_isValid input, fun n l => checkLine_empty_iff n l⟩

/-- Claim C2, counterexample: on the two-line scenario input the error
sequence is not the claimed singleton, because the second line also
triggers the missing-`completion` check. -/
theorem C2_counterexample :
    (validateJSONL
      ("\x7b\"prompt\":\"a\",\"completion\":\"b\"\x7d\n\x7b\"prompt\":123\x7d").data).errors ≠
      ["Line 2: Missing or invalid " ++ quote "prompt" ++ " field"] := by
  decide

/-- Claim C2, amended: the two-line scenario input yields `totalLines = 2`
and exactly the two errors `Line 2: Missing or invalid 'prompt' field`
and `Line 2: Missing or invalid 'completion' field`, and the
`/api/validate-jsonl` endpoint answers it with status 400. -/
theorem C2_amended :
    validateJSONL
      ("\x7b\"prompt\":\"a\",\"completion\":\"b\"\x7d\n\x7b\"prompt\":123\x7d").data =
      { isValid := false,
        errors := ["Line 2: Missing or invalid " ++ quote "prompt" ++ " field",
                   "Line 2: Missing or invalid " ++ quote "completion" ++ " field"],
        totalLines := 2 } ∧
    (validateJsonlRoute (some ("upload.jsonl",
      ("\x7b\"prompt\":\"a\",\"completion\":\"b\"\x7d\n\x7b\"prompt\":123\x7d").data))).status
      = 400 := by
  refine ⟨by decide, by decide⟩

/-- Claim C3, counterexample: a blank line is counted but fails step 1
(JSON parsing), producing a single `Invalid JSON format` error rather than
the claimed missing-field errors of steps 2 and 3. -/
theorem C3_counterexample :
    (validateJSONL ['\n']).totalLines = 1 ∧
    (validateJSONL ['\n']).errors =
      ["Line 1: Invalid JSON format - Unexpected end of JSON input"] ∧
    ("Line 1: Missing or invalid " ++ quote "prompt" ++ " field") ∉
      (validateJSONL ['\n']).errors ∧
    ("Line 1: Missing or invalid " ++ quote "completion" ++ " field") ∉
      (validateJSONL ['\n']).errors := by
  refine ⟨by decide, by decide, by decide, by decide⟩

/-- Claim C3, amended: a blank line is counted in `totalLines` and is
reported as failing step 1 with an `Invalid JSON format` error for its
line number — it is not filtered out. -/
theorem C3_amended :
    ∀ (input : List Char) (pre suf : List (List Char)),
      splitLines input = pre ++ [] :: suf →
      (validateJSONL input).totalLines = (splitLines input).length ∧
      invalidJsonMsg (pre.length + 1) "Unexpected end of JSON input" ∈
        (validateJSONL input).errors := by
  intro input pre suf hsplit
  refine ⟨validateJSONL_totalLines input, ?_⟩
  rw [validateJSONL_errors, hsplit, runLines_append]
  apply List.mem_append_right
  have hblank : checkLine (pre.length + 1) [] =
      [invalidJsonMsg (pre.length + 1) "Unexpected end of JSON input"] := rfl
  simp only [runLines, Nat.zero_add, hblank]
  exact List.mem_append_left _ (by simp)

/-- Claim C3, witness: the amended theorem applied to the input consisting
of one newline. -/
theorem C3_witness :
    (validateJSONL ['\n']).totalLines = (splitLines ['\n']).length ∧
    invalidJsonMsg 1 "Unexpected end of JSON input" ∈ (validateJSONL ['\n']).errors := by
  have h := C3_amended ['\n'] [] [] (by rfl)
  simpa using h

/-- Claim C4, counterexample: when the upstream image-edit call fails, the
handler answers 500 from its catch block without unlinking the uploaded
temporary image file. -/
theorem C4_counterexample :
    (editImageRoute (some "p") (some "upload.png") none (.error "boom")).deleted = [] ∧
    (editImageRoute (some "p") (some "upload.png") none (.error "boom")).status = 500 :=
  ⟨rfl, rfl⟩

/-- Claim C4, amended: the fine-tune endpoints (`/api/validate-jsonl` and
`/api/upload`) remove the temporary upload file exactly once on every
path, while the image edit/variation endpoints remove the uploaded files
only when the upstream call succeeds and leave them behind when it
throws. -/
theorem C4_amended :
    ∀ (p pr img : String) (content : List Char) (api : Except String Unit)
      (mask : Option String) (e : String),
      (uploadRoute (some (p, content)) api).deleted = [p] ∧
      (validateJsonlRoute (some (p, content))).deleted = [p] ∧
      (editImageRoute (some pr) (some img) mask (.ok ())).deleted = img :: mask.toList ∧
      (editImageRoute (some pr) (some img) mask (.error e)).deleted = [] ∧
      (imageVariationsRoute (some img) (.ok ())).deleted = [img] ∧
      (imageVariationsRoute (some img) (.error e)).deleted = [] := by
  intro p pr img content api mask e
  refine ⟨?_, ?_, rfl, rfl, rfl, rfl⟩
  · cases hv : (validateJSONL content).isValid <;> cases api <;>
      simp [uploadRoute, hv]
  · cases hv : (validateJSONL content).isValid <;>
      simp [validateJsonlRoute, hv]

/-- Claim C5: after any sequence of successful appends to an absent or
empty log, `listAll` returns exactly the appended entries in reverse
append order; in particular appending three entries lists them
newest-first. -/
theorem C5_theorem :
    ∀ es : List Json,
      listAll (es.foldl appendLog none) = .ok es.reverse ∧
      listAll (es.foldl appendLog (some [])) = .ok es.reverse ∧
      ∀ e1 e2 e3 : Json,
        listAll (([e1, e2, e3] : List Json).foldl appendLog none) = .ok [e3, e2, e1] := by
  intro es
  refine ⟨listAll_appendLog_none es, listAll_appendLog es, fun e1 e2 e3 => ?_⟩
  have h := listAll_appendLog_none [e1, e2, e3]
  simpa using h

/-- Claim C6, counterexample: the input `a\rb` contains no newline, so it
is one newline-delimited segment, yet the validator reports two lines —
`readline` also terminates a line at a `\r` not followed by `\n` — so
`totalLines` is not the newline-delimited segment count. -/
theorem C6_counterexample :
    (validateJSONL ['a', '\r', 'b']).totalLines = 2 ∧
    splitLines ['a', '\r', 'b'] = [['a'], ['b']] ∧
    (validateJSONL ['a', '\r', 'b']).totalLines ≠
      (['a', '\r', 'b'] : List Char).count '\n' +
        (if (['a', '\r', 'b'] : List Char).getLast? = some '\n' ∨
            (['a', '\r', 'b'] : List Char) = [] then 0 else 1) := by
  refine ⟨by decide, by decide, by decide⟩

/-- Claim C6, amended: `totalLines` counts exactly the line-break-delimited
segments, where a break is a `\n`, a `\r\n` pair (taken as one), or a `\r`
not followed by `\n`, blank segments included and a trailing partial line
counting as one line: it is the break count plus one unless the input is
empty or ends in a break. -/
theorem C6_amended :
    ∀ input : List Char,
      (validateJSONL input).totalLines = (splitLines input).length ∧
      (splitLines input).length =
        termCount input +
          (if input.getLast? = some '\n' ∨ input.getLast? = some '\r' ∨ input = []
            then 0 else 1) := by
  intro input
  exact ⟨validateJSONL_totalLines input, splitLines_length input⟩

/-- Claim C8: the upload endpoint calls the external create-file API
exactly when validation passed, and on an invalid file it answers 400
carrying the full validator error list. -/
theorem C8_theorem :
    ∀ (p : String) (content : List Char) (api : Except String Unit),
      (uploadRoute (some (p, content)) api).apiCalled = (validateJSONL content).isValid ∧
      ((validateJSONL content).isValid = false →
        (uploadRoute (some (p, content)) api).status = 400 ∧
        (uploadRoute (some (p, content)) api).details = (validateJSONL content).errors) := by
  intro p content api
  cases hv : (validateJSONL content).isValid <;> cases api <;>
    simp [uploadRoute, hv]

/-- Claim C8, witness: the theorem applied to an invalid one-line file:
the API is not called and the reply is a 400 carrying the error list. -/
theorem C8_witness :
    (uploadRoute (some ("f.jsonl", ("x").data)) (.error "upstream")).apiCalled =
      (validateJSONL ("x").data).isValid ∧
    (uploadRoute (some ("f.jsonl", ("x").data)) (.error "upstream")).status = 400 ∧
    (uploadRoute (some ("f.jsonl", ("x").data)) (.error "upstream")).details =
      (validateJSONL ("x").data).errors := by
  have h := C8_theorem "f.jsonl" ("x").data (.error "upstream")
  exact ⟨h.1, (h.2 (by decide)).1, (h.2 (by decide)).2⟩

/-- Claim C9: `listAll` on a non-existent log file returns the empty
sequence and never an error; blank lines are discarded before parsing;
and any remaining malformed line makes the entire listing call fail. -/
theorem C9_theorem :
    listAll none = .ok [] ∧
    (∀ a b : List Char,
      listAll (some (a ++ '\n' :: '\n' :: b)) = listAll (some (a ++ '\n' :: b))) ∧
    (∀ (content l : List Char) (msg : String),
      l ∈ (jsSplit content).filter (fun l2 => !(jsTrim l2).isEmpty) →
      parseJson l = .error msg → ∃ e, listAll (some content) = .error e) := by
  refine ⟨rfl, listAll_blank_insensitive, ?_⟩
  intro content l msg hmem herr
  exact listAll_malformed hmem herr

/-- Claim C9, witness: the theorem applied to a log containing the single
malformed line `x`. -/
theorem C9_witness :
    listAll none = .ok [] ∧ ∃ e, listAll (some (("x").data)) = .error e := by
  have h := C9_theorem
  exact ⟨h.1, h.2.2 ("x").data ("x").data "Unexpected token in JSON" (by decide) (by decide)⟩

/-- Claim C10: a line that parses to the JSON value `null` yields exactly
one error, of the `Invalid JSON format` form, carrying the message of the
TypeError thrown by reading `prompt` of `null`; no missing-field error is
produced for it. -/
theorem C10_theorem :
    ∀ (n : Nat) (l : List Char), parseJson l = .ok .null →
      checkLine n l = [invalidJsonMsg n nullAccessMsg] := by
  intro n l h
  unfold checkLine
  rw [h]
  rfl

/-- Claim C10, witness: the theorem applied to the line `null`. -/
theorem C10_witness :
    checkLine 1 ("null").data = [invalidJsonMsg 1 nullAccessMsg] :=
  C10_theorem 1 ("null").data (by decide)

end ReactStarter
